import Mathlib

/-!
# A shallow embedding of the `fit` version-control engine (src/main.rs)

The repository is a single Rust file implementing a git-like content-addressed
version control engine.  This file embeds the parts of `main.rs` that the
claims are about and proves or refutes each claim.

Modelling conventions, fixed once and used throughout:

* Byte sequences and strings are both modelled as `List Char` (`Chars`); every
  byte of interest is an ASCII code point, and the Rust code funnels every
  byte sequence it parses through `String::from_utf8_lossy`, which is the
  identity on such data.  Blob payloads pass through the model opaquely, so
  arbitrary `Chars` payloads are supported.
* The filesystem layout under `.fit/` is modelled by the `FitState` record:
  one field per file or directory the source touches (`objects/`, `HEAD`,
  `refs/heads/*`, `index`, `STAGING`, `STASH`), plus the working tree as an
  association list from path to contents and the set of directories that
  exist.  `Option Chars` fields model files that may be absent.
* Objects are stored zlib-compressed on disk; compression is a bijection on
  the stored stream, so the model stores the inflated stream
  (`header ++ payload`) directly.
* `HashMap` iteration order is unspecified in Rust; the model fixes the
  insertion-order-with-replacement representation of `ainsert` below.  This
  is one admissible refinement (the spec itself notes the order is
  unspecified, §9 "tree hash instability").
* Fallible Rust operations (`io::Result`, `unwrap` panics) are modelled with
  `Except`/`Option` results.  An error result models the process aborting;
  partial on-disk effects of a run that panics midway are not modelled, and
  every theorem below is about runs that return `Ok`, or about the error
  value itself.
* The SHA-1 hash used by `write_object` is implemented concretely
  (`sha1Hex`).  Theorems that need nothing but determinism and the hex
  rendering use it directly; theorems whose truth additionally needs absence
  of hash collisions among the handful of objects they create take the hash
  function as a parameter with explicit inequality hypotheses at exactly the
  inputs involved.
-/

namespace Fit

/-- Characters standing for bytes; see the header comment. -/
abbrev Chars := List Char

/-- The NUL byte, written `\0` in the Rust source. -/
def nulChar : Char := Char.ofNat 0

/-- The whitespace predicate used by Rust's `str::trim` /
`str::split_whitespace` restricted to the ASCII range that can occur here. -/
def isWs (c : Char) : Bool :=
  c = ' ' || c = '\t' || c = '\n' || c = '\r'

/-- A usable token: nonempty and free of whitespace.  Paths and hashes that
appear in the index, staging and tree files must satisfy this for the
whitespace-delimited serialization to round-trip (spec §9 "path whitespace"). -/
def cleanTok (s : Chars) : Bool :=
  !s.isEmpty && s.all (fun c => !isWs c)

/-- Split at the first NUL byte: models
`content.iter().position(|&b| b == 0)` followed by the two slices in
`read_object`.  `none` models the `unwrap` panic when no NUL exists. -/
def splitAtNul : Chars → Option (Chars × Chars)
  | [] => none
  | c :: cs =>
    if c = nulChar then some ([], cs)
    else
      match splitAtNul cs with
      | none => none
      | some (a, b) => some (c :: a, b)

/-- Helper for `splitWs`: the accumulator holds the reversed current token. -/
def splitWsAux : Chars → Chars → List Chars
  | [], acc => if acc.isEmpty then [] else [acc.reverse]
  | c :: cs, acc =>
    if isWs c then
      if acc.isEmpty then splitWsAux cs [] else acc.reverse :: splitWsAux cs []
    else splitWsAux cs (c :: acc)

/-- Rust `str::split_whitespace`: maximal runs of non-whitespace characters,
no empty tokens. -/
def splitWs (s : Chars) : List Chars := splitWsAux s []

/-- Split on `'\n'`, keeping empty pieces; always returns at least one piece
(the semantics of `str::split('\n')`). -/
def splitNl : Chars → List Chars
  | [] => [[]]
  | c :: cs =>
    if c = '\n' then [] :: splitNl cs
    else
      match splitNl cs with
      | [] => [[c]]
      | l :: ls => (c :: l) :: ls

/-- Strip one trailing `'\r'`, as `str::lines` does per line. -/
def stripCR (l : Chars) : Chars :=
  if l.getLast? = some '\r' then l.dropLast else l

/-- Rust `str::lines`: split on `'\n'`, drop a single trailing empty piece,
strip one trailing `'\r'` from each line. -/
def rustLines (s : Chars) : List Chars :=
  let parts := splitNl s
  let parts := if parts.getLast? = some [] then parts.dropLast else parts
  parts.map stripCR

/-- Rust `str::trim` (ASCII whitespace; see `isWs`). -/
def trimChars (s : Chars) : Chars :=
  ((s.dropWhile isWs).reverse.dropWhile isWs).reverse

/-- Rust `slice::join("\n")` / `Vec::join("\n")`: interleave `'\n'` with no
trailing separator. -/
def joinNl : List Chars → Chars
  | [] => []
  | [x] => x
  | x :: xs => x ++ '\n' :: joinNl xs

/-- Rust `str::strip_prefix`: `some` of the remainder when `p` is a prefix of
`s`, `none` otherwise. -/
def dropPre (p s : Chars) : Option Chars :=
  match p, s with
  | [], s => some s
  | _ :: _, [] => none
  | a :: p', b :: s' => if a = b then dropPre p' s' else none

/-- Decimal rendering of a natural number, modelling `format!("{}", n)`. -/
def natCharsCore : Nat → Nat → Chars → Chars
  | 0, _, acc => acc
  | fuel + 1, n, acc =>
    let acc := Char.ofNat (48 + n % 10) :: acc
    if n < 10 then acc else natCharsCore fuel (n / 10) acc

/-- Decimal rendering of a natural number. -/
def natChars (n : Nat) : Chars := natCharsCore (n + 1) n []

/-! ## SHA-1 (the `sha1` crate used by `write_object`)

A direct executable implementation over `Nat` with explicit `% 2 ^ 32`
reductions. -/

/-- 32-bit left rotation. -/
def rotl32 (n x : Nat) : Nat := ((x <<< n) ||| (x >>> (32 - n))) % 4294967296

/-- Big-endian 8-byte rendering of a 64-bit value. -/
def be64 (n : Nat) : List Nat :=
  [(n >>> 56) % 256, (n >>> 48) % 256, (n >>> 40) % 256, (n >>> 32) % 256,
   (n >>> 24) % 256, (n >>> 16) % 256, (n >>> 8) % 256, n % 256]

/-- Big-endian 4-byte rendering of a 32-bit word. -/
def be32 (n : Nat) : List Nat :=
  [(n >>> 24) % 256, (n >>> 16) % 256, (n >>> 8) % 256, n % 256]

/-- SHA-1 message padding: `0x80`, zeros to 56 mod 64, 64-bit bit length. -/
def sha1Pad (m : List Nat) : List Nat :=
  let l := m.length
  let z := (64 - ((l + 9) % 64)) % 64
  m ++ 128 :: (List.replicate z 0 ++ be64 (8 * l))

/-- Pack bytes into big-endian 32-bit words. -/
def toWords : List Nat → List Nat
  | a :: b :: c :: d :: rest => (((a * 256 + b) * 256 + c) * 256 + d) :: toWords rest
  | _ => []

/-- Split a byte list into 64-byte blocks. -/
def chunk64 : List Nat → List (List Nat)
  | [] => []
  | l@(_ :: _) => l.take 64 :: chunk64 (l.drop 64)
  termination_by l => l.length
  decreasing_by
    rename_i h
    subst h
    simp
    omega

/-- One step of the SHA-1 message-schedule extension. -/
def schedStep (w : List Nat) : List Nat :=
  w ++ [rotl32 1 ((w.getD (w.length - 3) 0) ^^^ (w.getD (w.length - 8) 0) ^^^
                  (w.getD (w.length - 14) 0) ^^^ (w.getD (w.length - 16) 0))]

/-- Iterate the schedule extension. -/
def extendSched (w : List Nat) : Nat → List Nat
  | 0 => w
  | k + 1 => schedStep (extendSched w k)

/-- The 80-word message schedule of one block. -/
def schedule (block16 : List Nat) : List Nat := extendSched block16 64

/-- The SHA-1 round function. -/
def sha1F (i b c d : Nat) : Nat :=
  if i < 20 then (b &&& c) ||| ((b ^^^ 4294967295) &&& d)
  else if i < 40 then b ^^^ c ^^^ d
  else if i < 60 then (b &&& c) ||| (b &&& d) ||| (c &&& d)
  else b ^^^ c ^^^ d

/-- The SHA-1 round constants. -/
def sha1K (i : Nat) : Nat :=
  if i < 20 then 1518500249
  else if i < 40 then 1859775393
  else if i < 60 then 2400959708
  else 3395469782

/-- The 80 SHA-1 rounds over one block's schedule. -/
def sha1Rounds (w : List Nat) (st : Nat × Nat × Nat × Nat × Nat) : Nat × Nat × Nat × Nat × Nat :=
  (List.range 80).foldl
    (fun st i =>
      match st with
      | (a, b, c, d, e) =>
        ((rotl32 5 a + sha1F i b c d + e + sha1K i + w.getD i 0) % 4294967296,
         a, rotl32 30 b, c, d))
    st

/-- Process one 64-byte block, updating the five-word chaining state. -/
def processBlock (hs : List Nat) (block : List Nat) : List Nat :=
  let w := schedule (toWords block)
  let r := sha1Rounds w (hs.getD 0 0, hs.getD 1 0, hs.getD 2 0, hs.getD 3 0, hs.getD 4 0)
  [(hs.getD 0 0 + r.1) % 4294967296, (hs.getD 1 0 + r.2.1) % 4294967296,
   (hs.getD 2 0 + r.2.2.1) % 4294967296, (hs.getD 3 0 + r.2.2.2.1) % 4294967296,
   (hs.getD 4 0 + r.2.2.2.2) % 4294967296]

/-- The 20-byte SHA-1 digest of a byte sequence. -/
def sha1Bytes (msg : List Nat) : List Nat :=
  let blocks := chunk64 (sha1Pad msg)
  let h := blocks.foldl processBlock [1732584193, 4023233417, 2562383102, 271733878, 3285377520]
  h.flatMap be32

/-- Lowercase hex digit. -/
def hexDigit (n : Nat) : Char :=
  if n < 10 then Char.ofNat (48 + n) else Char.ofNat (87 + n)

/-- Two-digit lowercase hex rendering of a byte (`format!("{:02x}", b)`). -/
def hexByte (b : Nat) : Chars := [hexDigit (b / 16), hexDigit (b % 16)]

/-- Lowercase hex rendering of a byte list, as `format!("{:x}", digest)`
renders the 20-byte digest. -/
def toHex (bs : List Nat) : Chars := bs.flatMap hexByte

/-- The 40-character lowercase hex SHA-1 of a byte sequence (modelled as
`Chars`, each character one byte). -/
def sha1Hex (m : Chars) : Chars := toHex (sha1Bytes (m.map Char.toNat))

/-! ## The repository state

One field per file or directory of `.fit/` that `main.rs` touches, plus the
working tree.  Association lists model both directories of files (`objects/`,
`refs/heads/`, the working tree) and are also used for the in-memory
`HashMap`s. -/

/-- First-match association-list lookup (`HashMap::get`, or opening the file
named by the key). -/
def alookup (k : Chars) : List (Chars × Chars) → Option Chars
  | [] => none
  | e :: es => if e.1 = k then some e.2 else alookup k es

/-- Insert-or-replace (`HashMap::insert`, or overwriting the file named by
the key). -/
def ainsert (m : List (Chars × Chars)) (k v : Chars) : List (Chars × Chars) :=
  (k, v) :: m.filter (fun e => !(e.1 = k : Bool))

/-- Remove a key (`HashMap::remove`, or `fs::remove_file`). -/
def aremove (m : List (Chars × Chars)) (k : Chars) : List (Chars × Chars) :=
  m.filter (fun e => !(e.1 = k : Bool))

/-- The on-disk state of one repository plus its working tree.

* `objects`: hash string to inflated stored stream (`header ++ payload`);
* `head`: the contents of `.fit/HEAD`;
* `refs`: branch name to the contents of `.fit/refs/heads/<name>`;
* `indexFile`, `staging`, `stash`: the raw contents of `.fit/index`,
  `.fit/STAGING`, `.fit/STASH` (`none` when the file is absent);
* `workdir`: path to file contents for the regular files of the working
  tree (paths are as the program uses them, relative to the root);
* `dirs`: the directories that exist in the working tree. -/
structure FitState where
  objects : List (Chars × Chars)
  head : Chars
  refs : List (Chars × Chars)
  indexFile : Option Chars
  staging : Option Chars
  stash : Option Chars
  workdir : List (Chars × Chars)
  dirs : List Chars
  deriving DecidableEq, Repr

/-! ## Object store (`write_object` / `read_object`) -/

/-- The object header `"{type} {len}\0"`. -/
def objHeader (objectType content : Chars) : Chars :=
  objectType ++ ' ' :: (natChars content.length ++ [nulChar])

/-- `write_object`: hash `header ++ content`, store the same stream under the
hash (the zlib compression of the stored file is modelled away, see the
header comment), return the hex hash.  The hash function is a parameter;
`sha1Hex` is the one the source uses. -/
def write_object (hashFn : Chars → Chars) (s : FitState) (content objectType : Chars) :
    Chars × FitState :=
  let stream := objHeader objectType content ++ content
  let hash_hex := hashFn stream
  (hash_hex, { s with objects := ainsert s.objects hash_hex stream })

/-- `read_object`: `none` when the object file is missing; otherwise split
the inflated stream at the first NUL and return
(`header.splitn(2, ' ')` first token, payload).  `none` also models the
panic on a stream with no NUL, which no written object exhibits. -/
def read_object (s : FitState) (hash : Chars) : Option (Chars × Chars) :=
  match alookup hash s.objects with
  | none => none
  | some stream =>
    match splitAtNul stream with
    | none => none
    | some (hdr, payload) => some (hdr.takeWhile (fun c => !(c = ' ' : Bool)), payload)

/-! ## Reference store -/

/-- `get_current_branch`: strip `"ref: refs/heads/"` from the trimmed HEAD,
falling back to `master`. -/
def get_current_branch (s : FitState) : Chars :=
  (dropPre ("ref: refs/heads/".toList) (trimChars s.head)).getD ("master".toList)

/-- `get_current_commit`: resolve HEAD to its ref file and read the trimmed
hash.  `none` models the I/O error when the ref file does not exist. -/
def get_current_commit (s : FitState) : Option Chars :=
  let refPath := (dropPre ("ref: ".toList) (trimChars s.head)).getD s.head
  match dropPre ("refs/heads/".toList) refPath with
  | some b => (alookup b s.refs).map trimChars
  | none => none

/-- `update_current_branch`: write the hash into the current branch's ref
file. -/
def update_current_branch (s : FitState) (commit_hash : Chars) : FitState :=
  { s with refs := ainsert s.refs (get_current_branch s) commit_hash }

/-- `get_branch_commit`: read a branch's ref file, trimmed; `none` models the
`NotFound` error. -/
def get_branch_commit (s : FitState) (branch_name : Chars) : Option Chars :=
  (alookup branch_name s.refs).map trimChars

/-! ## Index -/

/-- `write_index` serialization: lines `<hash> <path>` joined by `'\n'` with
no trailing newline. -/
def serializeIndex (index : List (Chars × Chars)) : Chars :=
  joinNl (index.map (fun e => e.2 ++ ' ' :: e.1))

/-- `read_index` parsing: split each line on whitespace, map
`parts[1] → parts[0]` (path to hash); `none` models the panic on a line with
fewer than two tokens.  Collecting into a `HashMap` keeps the last entry for
a repeated path. -/
def parseIndexLines : List Chars → List (Chars × Chars) → Option (List (Chars × Chars))
  | [], acc => some acc
  | l :: ls, acc =>
    match splitWs l with
    | h :: p :: _ => parseIndexLines ls (ainsert acc p h)
    | _ => none

/-- `read_index`: `none` models the I/O error when `.fit/index` is missing,
or the parse panic. -/
def read_index (s : FitState) : Option (List (Chars × Chars)) :=
  match s.indexFile with
  | none => none
  | some content => parseIndexLines (rustLines content) []

/-- `write_index`: rewrite `.fit/index` whole. -/
def write_index (s : FitState) (index : List (Chars × Chars)) : FitState :=
  { s with indexFile := some (serializeIndex index) }

/-! ## Staging area -/

/-- The in-memory `StagingArea`: `added` and `modified` are `HashMap`s from
path to hash, `deleted` is a `Vec` of paths. -/
structure StagingArea where
  added : List (Chars × Chars)
  modified : List (Chars × Chars)
  deleted : List Chars
  deriving DecidableEq, Repr

/-- `StagingArea::new`. -/
def StagingArea.new : StagingArea := ⟨[], [], []⟩

/-- `StagingArea::add`. -/
def StagingArea.add (sa : StagingArea) (path hash : Chars) : StagingArea :=
  { sa with added := ainsert sa.added path hash }

/-- `StagingArea::modify`. -/
def StagingArea.modify (sa : StagingArea) (path hash : Chars) : StagingArea :=
  { sa with modified := ainsert sa.modified path hash }

/-- `StagingArea::delete` (a `Vec::push`). -/
def StagingArea.delete (sa : StagingArea) (path : Chars) : StagingArea :=
  { sa with deleted := sa.deleted ++ [path] }

/-- `StagingArea::is_staged`: the disjunction over the three partitions. -/
def StagingArea.isStaged (sa : StagingArea) (path : Chars) : Bool :=
  (alookup path sa.added).isSome || (alookup path sa.modified).isSome ||
    sa.deleted.contains path

/-- One line of `read_staging_area`'s parser.  Note the faithful
`parts.len() == 3` guard: serialized `D <path>` lines have two tokens and
are silently dropped on reload. -/
def parseStagingLine (sa : StagingArea) (line : Chars) : StagingArea :=
  match splitWs line with
  | [tag, h, p] =>
    if tag = "A".toList then sa.add p h
    else if tag = "M".toList then sa.modify p h
    else if tag = "D".toList then sa.delete p
    else sa
  | _ => sa

/-- `read_staging_area`: an absent `STAGING` file yields the empty area. -/
def read_staging_area (s : FitState) : StagingArea :=
  match s.staging with
  | none => StagingArea.new
  | some content => (rustLines content).foldl parseStagingLine StagingArea.new

/-- `write_staging_area` serialization: `A <hash> <path>`, `M <hash> <path>`,
`D <path>` lines, each newline-terminated. -/
def serializeSA (sa : StagingArea) : Chars :=
  (sa.added.map (fun e => 'A' :: ' ' :: (e.2 ++ ' ' :: (e.1 ++ ['\n'])))).flatten ++
  (sa.modified.map (fun e => 'M' :: ' ' :: (e.2 ++ ' ' :: (e.1 ++ ['\n'])))).flatten ++
  (sa.deleted.map (fun p => 'D' :: ' ' :: (p ++ ['\n']))).flatten

/-- `write_staging_area`: always writes the file, even when empty. -/
def write_staging_area (s : FitState) (sa : StagingArea) : FitState :=
  { s with staging := some (serializeSA sa) }

/-! ## Add and rm -/

/-- `add_file`: read the working file, store its blob, classify into the
staging area (`Added` when absent from the index, `Modified` when present at
a different hash, untouched otherwise), eagerly update the index. -/
def add_file (hashFn : Chars → Chars) (s : FitState) (sa : StagingArea)
    (index : List (Chars × Chars)) (path : Chars) :
    Option (FitState × StagingArea × List (Chars × Chars)) :=
  match alookup path s.workdir with
  | none => none
  | some contents =>
    let (hash_hex, s') := write_object hashFn s contents ("blob".toList)
    let sa' :=
      match alookup path index with
      | some old_hash => if old_hash ≠ hash_hex then sa.modify path hash_hex else sa
      | none => sa.add path hash_hex
    some (s', sa', ainsert index path hash_hex)

/-- Fold `add_file` over a list of file paths, threading state. -/
def add_files (hashFn : Chars → Chars) :
    List Chars → FitState → StagingArea → List (Chars × Chars) →
    Option (FitState × StagingArea × List (Chars × Chars))
  | [], s, sa, index => some (s, sa, index)
  | p :: ps, s, sa, index =>
    match add_file hashFn s sa index p with
    | none => none
    | some (s', sa', index') => add_files hashFn ps s' sa' index'

/-- The working-tree files below a directory.  `add_directory` recurses
`read_dir` depth-first in host order; the model enumerates the same set of
files in working-tree order (one admissible host order). -/
def dirFiles (s : FitState) (d : Chars) : List Chars :=
  (s.workdir.map (fun e => e.1)).filter (fun p => (d ++ ['/']).isPrefixOf p)

/-- `add_workflow`: load staging and index, dispatch on file/directory (an
invalid path only prints), save staging and index. -/
def add_workflow (hashFn : Chars → Chars) (s : FitState) (path : Chars) :
    Except Chars FitState :=
  let sa := read_staging_area s
  match read_index s with
  | none => .error ("io: could not read index".toList)
  | some index =>
    if (alookup path s.workdir).isSome then
      match add_file hashFn s sa index path with
      | none => .error ("io: could not read file".toList)
      | some (s', sa', index') => .ok (write_index (write_staging_area s' sa') index')
    else if s.dirs.contains path then
      match add_files hashFn (dirFiles s path) s sa index with
      | none => .error ("io: could not read file".toList)
      | some (s', sa', index') => .ok (write_index (write_staging_area s' sa') index')
    else
      .ok (write_index (write_staging_area s sa) index)

/-- `rm_workflow`: for an existing path that is in the index, remove it from
the index and record a `Deleted` entry; otherwise only print. -/
def rm_workflow (s : FitState) (file : Chars) : Except Chars FitState :=
  if (alookup file s.workdir).isSome || s.dirs.contains file then
    let sa := read_staging_area s
    match read_index s with
    | none => .error ("io: could not read index".toList)
    | some index =>
      match alookup file index with
      | some _ =>
        .ok (write_index (write_staging_area s (sa.delete file)) (aremove index file))
      | none => .ok s
  else .ok s

/-! ## Commit -/

/-- The outcome `commit_workflow` reports. -/
inductive CommitResult
  | nothingToCommit
  | committed (hash : Chars)
  deriving DecidableEq, Repr

/-- The emptiness test guarding the commit pipeline. -/
def saIsEmpty (sa : StagingArea) : Bool :=
  sa.added.isEmpty && sa.modified.isEmpty && sa.deleted.isEmpty

/-- Apply the staging delta to the index: insert added and modified entries,
then remove deleted paths. -/
def applyStagingToIndex (sa : StagingArea) (index : List (Chars × Chars)) :
    List (Chars × Chars) :=
  let index := (sa.added ++ sa.modified).foldl (fun m e => ainsert m e.1 e.2) index
  sa.deleted.foldl (fun m p => aremove m p) index

/-- `create_tree_object` serialization: one `100644 blob <hash> <path>\n` row
per index entry, in iteration order. -/
def serializeTree (index : List (Chars × Chars)) : Chars :=
  (index.map (fun e => "100644 blob ".toList ++ e.2 ++ ' ' :: (e.1 ++ ['\n']))).flatten

/-- `create_tree_object`: store the serialized index as a tree object. -/
def create_tree_object (hashFn : Chars → Chars) (s : FitState)
    (index : List (Chars × Chars)) : Chars × FitState :=
  write_object hashFn s (serializeTree index) ("tree".toList)

/-- `commit_workflow`: report `nothing to commit` and change nothing when
all three staging partitions are empty; otherwise apply the delta, write the
tree and commit objects, advance the current branch ref, clear `STAGING`,
and persist the index. -/
def commit_workflow (hashFn : Chars → Chars) (s : FitState) (message : Chars) :
    Except Chars (CommitResult × FitState) :=
  let staging_area := read_staging_area s
  if saIsEmpty staging_area then .ok (.nothingToCommit, s)
  else
    match read_index s with
    | none => .error ("io: could not read index".toList)
    | some index =>
      let index := applyStagingToIndex staging_area index
      let (tree_hash, s1) := create_tree_object hashFn s index
      match get_current_commit s1 with
      | none => .error ("io: could not resolve HEAD".toList)
      | some parent_hash =>
        let commit_content :=
          "tree ".toList ++ tree_hash ++ '\n' ::
            ("parent ".toList ++ parent_hash ++ '\n' :: '\n' :: message)
        let (commit_hash, s2) := write_object hashFn s1 commit_content ("commit".toList)
        let s3 := update_current_branch s2 commit_hash
        match s3.staging with
        | none => .error ("io: could not remove STAGING".toList)
        | some _ => .ok (.committed commit_hash, write_index { s3 with staging := none } index)

/-! ## Reset (the Materializer) -/

/-- Split a path on `'/'` (the component view of a relative path). -/
def splitSlash : Chars → List Chars
  | [] => [[]]
  | c :: cs =>
    if c = '/' then [] :: splitSlash cs
    else
      match splitSlash cs with
      | [] => [[c]]
      | l :: ls => (c :: l) :: ls

/-- Join components with `'/'`. -/
def joinSlash : List Chars → Chars
  | [] => []
  | [x] => x
  | x :: xs => x ++ '/' :: joinSlash xs

/-- The directories `fs::create_dir_all(parent)` creates for a file path:
every proper ancestor of the path.  A path with no `'/'` has the empty
parent, for which `create_dir_all` is a no-op. -/
def ancestorDirs (p : Chars) : List Chars :=
  let comps := (splitSlash p).dropLast
  (List.range comps.length).map (fun i => joinSlash (comps.take (i + 1)))

/-- Parse tree rows into (hash, path) pairs: `parts[2]` and `parts[3]` of
each whitespace-split row; `none` models the panic on a short row. -/
def parseRows : List Chars → Option (List (Chars × Chars))
  | [] => some []
  | l :: ls =>
    match (splitWs l)[2]?, (splitWs l)[3]? with
    | some h, some p => (parseRows ls).map (fun r => (h, p) :: r)
    | _, _ => none

/-- The back half of the materialization: for each row, read the blob,
create parent directories, overwrite the working file, extend the new
index. -/
def applyRows (s : FitState) :
    List (Chars × Chars) → List (Chars × Chars) →
    Option (FitState × List (Chars × Chars))
  | [], new_index => some (s, new_index)
  | (file_hash, file_path) :: rest, new_index =>
    match read_object s file_hash with
    | none => none
    | some (_, blob_content) =>
      applyRows
        { s with dirs := s.dirs ++ ancestorDirs file_path,
                 workdir := ainsert s.workdir file_path blob_content }
        rest (ainsert new_index file_path file_hash)

/-- The deletion loop of `reset_workflow`: unlink every current-index path
outside the target set that still exists. -/
def deleteGone (target_files : List Chars) (s : FitState)
    (current_files : List Chars) : FitState :=
  current_files.foldl
    (fun st f =>
      if !(target_files.contains f) && (alookup f st.workdir).isSome then
        { st with workdir := aremove st.workdir f }
      else st)
    s

/-- `reset_workflow`: require the commit object, point the current branch at
it, read its tree, drop `STAGING`, materialize every tree row, unlink
current-index files outside the tree, persist the new index.  Error values
model the source's `NotFound` error and its panics; the partial effects of a
panicking run are not modelled (every theorem below is about `ok` runs). -/
def reset_workflow (s : FitState) (commit_hash : Chars) : Except Chars FitState :=
  match read_object s commit_hash with
  | none => .error ("Commit not found".toList)
  | some (_, commit_content) =>
    let s1 := update_current_branch s commit_hash
    match rustLines commit_content with
    | [] => .error ("panic: empty commit object".toList)
    | first_line :: _ =>
      match (splitWs first_line)[1]? with
      | none => .error ("panic: malformed commit header".toList)
      | some tree_hash =>
        match read_object s1 tree_hash with
        | none => .error ("panic: tree object missing".toList)
        | some (_, tree_content) =>
          let s2 := { s1 with staging := none }
          match read_index s2 with
          | none => .error ("io: could not read index".toList)
          | some current_index =>
            match parseRows (rustLines tree_content) with
            | none => .error ("panic: malformed tree row".toList)
            | some rows =>
              match applyRows s2 rows [] with
              | none => .error ("panic: blob object missing".toList)
              | some (s3, new_index) =>
                let current_files := current_index.map (fun e => e.1)
                let target_files := rows.map (fun r => r.2)
                .ok (write_index (deleteGone target_files s3 current_files) new_index)

/-! ## Merge engine -/

/-- `get_parent_commit`: the remainder of the first line starting with
`"parent "`, or the empty string. -/
def get_parent_commit (commit_info : Chars) : Chars :=
  match (rustLines commit_info).find? (fun l => ("parent ".toList).isPrefixOf l) with
  | some l => l.drop 7
  | none => []

/-- `get_commit_history`, with fuel standing for the source's unbounded
`while` loop.  Faithful to the source: the walk applies `get_parent_commit`
to `read_object(..).unwrap().0` — the object TYPE string (`"commit"`), not
the commit payload — so the walk stops after a single step whenever the
object exists. -/
def get_commit_history (s : FitState) : Nat → Chars → Option (List Chars)
  | 0, current => if current.isEmpty then some [] else none
  | fuel + 1, current =>
    if current.isEmpty then some []
    else
      match read_object s current with
      | none => none
      | some (object_type, _) =>
        (get_commit_history s fuel (get_parent_commit object_type)).map
          (fun h => current :: h)

/-- The search loop of `find_merge_base`: first element of the first list
contained in the second. -/
def firstCommon : List Chars → List Chars → Option Chars
  | [], _ => none
  | c :: cs, other => if other.contains c then some c else firstCommon cs other

/-- `find_merge_base` over the two walked histories. -/
def find_merge_base (s : FitState) (fuel : Nat) (current_commit branch_commit : Chars) :
    Except Chars Chars :=
  match get_commit_history s fuel current_commit,
        get_commit_history s fuel branch_commit with
  | some h1, some h2 =>
    match firstCommon h2 h1 with
    | some c => .ok c
    | none => .error ("Merge Base not found".toList)
  | _, _ => .error ("panic: history walk failed".toList)

/-- What the spec describes the ancestry walk to be (§4.9): walk `parent`
headers of the commit PAYLOAD until the parentless initial commit.  This is
exactly the walk `log_workflow` performs (it applies `get_parent_commit` to
the commit content), stated here to compare against `get_commit_history`. -/
def spec_ancestry (s : FitState) : Nat → Chars → Option (List Chars)
  | 0, current => if current.isEmpty then some [] else none
  | fuel + 1, current =>
    if current.isEmpty then some []
    else
      match read_object s current with
      | none => none
      | some (_, content) =>
        (spec_ancestry s fuel (get_parent_commit content)).map
          (fun h => current :: h)

/-- The outcome `merge_workflow` reports. -/
inductive MergeResult
  | alreadyUpToDate
  | fastForwarded
  | threeWayNotice
  deriving DecidableEq, Repr

/-- `fast_forward_merge`: advance the current branch and materialize. -/
def fast_forward_merge (s : FitState) (branch_commit : Chars) : Except Chars FitState :=
  reset_workflow (update_current_branch s branch_commit) branch_commit

/-- `merge_workflow`: the guards, the up-to-date check, the merge-base
computation, then — faithful to the source — fast-forward when the merge
base equals the TARGET branch's tip, and only a printed notice (no state
change) otherwise. -/
def merge_workflow (s : FitState) (fuel : Nat) (branch : Chars) :
    Except Chars (MergeResult × FitState) :=
  let current_branch := get_current_branch s
  if current_branch = branch then
    .error ("cannot merge a branch into itself".toList)
  else if branch = "master".toList ∨ ¬current_branch = "master".toList then
    .error ("cannot merge master into Non-Head branch".toList)
  else
    match get_current_commit s with
    | none => .error ("io: could not resolve HEAD".toList)
    | some current_commit =>
      match get_branch_commit s branch with
      | none => .error ("Branch not found".toList)
      | some branch_commit =>
        if current_commit = branch_commit then .ok (.alreadyUpToDate, s)
        else
          match find_merge_base s fuel current_commit branch_commit with
          | .error e => .error e
          | .ok merge_base =>
            if merge_base = branch_commit then
              (fast_forward_merge s branch_commit).map (fun s' => (.fastForwarded, s'))
            else .ok (.threeWayNotice, s)

/-! ## Stash stack -/

/-- `write_stashing_area`: push onto the front —
`format!("{}\n{}", stash_hash, existing.trim())`, with a missing file read
as the empty string. -/
def write_stashing_area (s : FitState) (stash_hash : Chars) : FitState :=
  let existing := s.stash.getD []
  { s with stash := some (stash_hash ++ '\n' :: trimChars existing) }

/-- `read_stashing_area`: pop the first line and rewrite the remainder;
`none` (without a write) when the file is absent or empty. -/
def read_stashing_area (s : FitState) : Option Chars × FitState :=
  match s.stash with
  | none => (none, s)
  | some content =>
    match rustLines content with
    | [] => (none, s)
    | top :: rest => (some top, { s with stash := some (joinNl rest) })

/-- `pop_stashed_content`: pop the top stash hash and materialize it; the
returned hash is the one handed to `reset_workflow`. -/
def pop_stashed_content (s : FitState) : Except Chars (Chars × FitState) :=
  match read_stashing_area s with
  | (none, _) => .error ("cannot pop, stash something first".toList)
  | (some latest_hash, s') =>
    (reset_workflow s' latest_hash).map (fun s'' => (latest_hash, s''))

/-- `stash_content`: snapshot the index as a commit-shaped object with
message `stash`, push its hash, reset back to the parent commit. -/
def stash_content (hashFn : Chars → Chars) (s : FitState) : Except Chars FitState :=
  match read_index s with
  | none => .error ("io: could not read index".toList)
  | some index =>
    let (tree_hash, s1) := create_tree_object hashFn s index
    match get_current_commit s1 with
    | none => .error ("io: could not resolve HEAD".toList)
    | some parent_hash =>
      let commit_content :=
        "tree ".toList ++ tree_hash ++ '\n' ::
          ("parent ".toList ++ parent_hash ++ '\n' :: '\n' :: "stash".toList)
      let (stash_hash, s2) := write_object hashFn s1 commit_content ("commit".toList)
      reset_workflow (write_stashing_area s2 stash_hash) parent_hash

/-! ## Status: the untracked-files section -/

/-- One entry of `fs::read_dir(".")`: its file name and whether it is a
regular file. -/
structure DirEntry where
  name : Chars
  isFile : Bool
  deriving DecidableEq, Repr

/-- `entry.path()` for an entry of `read_dir(".")`: the `"./"`-prefixed
name. -/
def entryPath (e : DirEntry) : Chars := '.' :: '/' :: e.name

/-- `Path::starts_with`: component-wise prefix (`"./a"` has components
`[".", "a"]`, so it does NOT start with `".fit"`). -/
def pathStarts (p pre : Chars) : Bool :=
  (splitSlash pre).isPrefixOf (splitSlash p)

/-- The "Untracked files" section of `status_workflow`: directory entries
that are files, do not start with `.fit`, and whose `"./"`-prefixed entry
path is not an index key. -/
def untracked_files (entries : List DirEntry) (index : List (Chars × Chars)) :
    List Chars :=
  (entries.filter (fun e =>
      e.isFile && !pathStarts (entryPath e) (".fit".toList)
        && (alookup (entryPath e) index).isNone)).map entryPath

/-! ## Derived definitions used by the statements below -/

/-- Decidable equality for `Except` results, used to evaluate concrete
runs. -/
instance exceptDecEq {ε α : Type} [DecidableEq ε] [DecidableEq α] :
    DecidableEq (Except ε α) := fun x y =>
  match x, y with
  | .ok a, .ok b =>
    if h : a = b then isTrue (by rw [h]) else isFalse (by simp [h])
  | .error a, .error b =>
    if h : a = b then isTrue (by rw [h]) else isFalse (by simp [h])
  | .ok _, .error _ => isFalse (by simp)
  | .error _, .ok _ => isFalse (by simp)

/-- The association map a `HashMap` built by inserting a list of entries in
order holds (used to describe `read_index`'s result). -/
def normIdx (I : List (Chars × Chars)) : List (Chars × Chars) :=
  I.foldl (fun m e => ainsert m e.1 e.2) []

/-- The lines of the stash stack file (`none` read as empty). -/
def stashLines (s : FitState) : List Chars := rustLines (s.stash.getD [])

/-- Push a sequence of stash hashes, oldest first. -/
def pushAll (s : FitState) (L : List Chars) : FitState :=
  L.foldl write_stashing_area s

/-- Pop (via `read_stashing_area`) `n` times, collecting the popped hashes
in order. -/
def readSeq : Nat → FitState → List Chars × FitState
  | 0, s => ([], s)
  | n + 1, s =>
    match read_stashing_area s with
    | (none, s') => ([], s')
    | (some h, s') =>
      let r := readSeq n s'
      (h :: r.1, r.2)

/-- The (hash, path) rows of the tree of a commit, as `reset_workflow`
extracts them (first header line, token 1, then the tree object's rows). -/
def treeRowsOf (s : FitState) (commit_hash : Chars) : Option (List (Chars × Chars)) :=
  match read_object s commit_hash with
  | none => none
  | some (_, commit_content) =>
    match rustLines commit_content with
    | [] => none
    | first_line :: _ =>
      match (splitWs first_line)[1]? with
      | none => none
      | some tree_hash =>
        match read_object s tree_hash with
        | none => none
        | some (_, tree_content) => parseRows (rustLines tree_content)

/-- The stored stream of a blob with payload `c`. -/
def blobStream (c : Chars) : Chars := objHeader ("blob".toList) c ++ c

/-- The index after `add F` starting from index file `serializeIndex I`:
what the add workflow writes back. -/
def c5index1 (hashFn : Chars → Chars) (I : List (Chars × Chars)) (F c : Chars) :
    List (Chars × Chars) :=
  ainsert (normIdx I) F (hashFn (blobStream c))

/-- The index the commit step assembles (reload of `c5index1`'s file, delta
applied). -/
def c5index2 (hashFn : Chars → Chars) (I : List (Chars × Chars)) (F c : Chars) :
    List (Chars × Chars) :=
  ainsert (normIdx (c5index1 hashFn I F c)) F (hashFn (blobStream c))

/-- The stored stream of the tree object the commit step writes. -/
def c5treeStream (hashFn : Chars → Chars) (I : List (Chars × Chars)) (F c : Chars) :
    Chars :=
  objHeader ("tree".toList) (serializeTree (c5index2 hashFn I F c)) ++
    serializeTree (c5index2 hashFn I F c)

/-- The stored stream of the commit object the commit step writes (parent
`C0`, message `M`). -/
def c5commitStream (hashFn : Chars → Chars) (I : List (Chars × Chars))
    (F c C0 M : Chars) : Chars :=
  objHeader ("commit".toList)
      ("tree ".toList ++ hashFn (c5treeStream hashFn I F c) ++ '\n' ::
        ("parent ".toList ++ C0 ++ '\n' :: '\n' :: M)) ++
    ("tree ".toList ++ hashFn (c5treeStream hashFn I F c) ++ '\n' ::
      ("parent ".toList ++ C0 ++ '\n' :: '\n' :: M))

/-- The starting state of the C5 round trip: HEAD on branch `b`, index file
holding `serializeIndex I`, no staging file. -/
def c5state (objs refs wd : List (Chars × Chars)) (dirs : List Chars)
    (stash : Option Chars) (b : Chars) (I : List (Chars × Chars)) : FitState :=
  ⟨objs, "ref: refs/heads/".toList ++ b ++ ['\n'], refs,
   some (serializeIndex I), none, stash, wd, dirs⟩

/-- A hash-shaped injective encoding used to instantiate hash-function
parameters in witnesses: unary-encode every character, self-delimited. -/
def encChar (c : Char) : Chars := List.replicate c.toNat 'a' ++ ['b']

/-- The injective witness hash function (nonempty, whitespace-free output). -/
def encHash (s : Chars) : Chars := 'h' :: s.flatMap encChar

/-- The payload of the commit object the C5 commit step writes. -/
def c5commitBody (hashFn : Chars → Chars) (I : List (Chars × Chars))
    (F c C0 M : Chars) : Chars :=
  "tree ".toList ++ hashFn (c5treeStream hashFn I F c) ++ '\n' ::
    ("parent ".toList ++ C0 ++ '\n' :: '\n' :: M)

/-- The state `add F` leaves behind in the C5 pipeline: blob stored, index
file rewritten with the new entry, staging file holding the one entry of
`sa'` (a single Added or a single Modified record). -/
def c5afterAdd (hashFn : Chars → Chars) (objs refs wd : List (Chars × Chars))
    (dirs : List Chars) (stash : Option Chars) (b F c : Chars)
    (I : List (Chars × Chars)) (sa' : StagingArea) : FitState :=
  ⟨ainsert objs (hashFn (blobStream c)) (blobStream c),
   "ref: refs/heads/".toList ++ b ++ ['\n'], refs,
   some (serializeIndex (c5index1 hashFn I F c)),
   some (serializeSA sa'), stash, wd, dirs⟩

/-- The state `commit -m M` leaves behind when run from `s` in the C5
pipeline: tree and commit objects stored, branch `b` advanced to the commit
hash, index file rewritten, staging file removed. -/
def c5afterCommit (hashFn : Chars → Chars) (s : FitState) (b C0 F c M : Chars)
    (I : List (Chars × Chars)) : FitState :=
  ⟨ainsert (ainsert s.objects (hashFn (c5treeStream hashFn I F c))
      (c5treeStream hashFn I F c))
      (hashFn (c5commitStream hashFn I F c C0 M))
      (c5commitStream hashFn I F c C0 M),
   s.head, ainsert s.refs b (hashFn (c5commitStream hashFn I F c C0 M)),
   some (serializeIndex (c5index2 hashFn I F c)), none, s.stash, s.workdir,
   s.dirs⟩

/-! ## Concrete repositories exhibiting the merge-engine and staging defects -/

/-- A small hash function for concrete executions.  The concrete theorems
below only need determinism, whitespace-freedom of the output and
distinctness of the finitely many inputs actually hashed, all of which are
checked by evaluation. -/
def demoHash (s : Chars) : Chars :=
  'h' :: s.filter (fun c => !isWs c && !(c = nulChar : Bool))

/-- The stored stream of an object: `header ++ payload`. -/
def mkObj (t c : Chars) : Chars := objHeader t c ++ c

/-- Three chained commits `Rh ← Ah ← Bh` (parent headers in the payloads). -/
def demoObjects : List (Chars × Chars) :=
  [("Rh".toList, mkObj ("commit".toList) ("tree TE\n\nInitial commit".toList)),
   ("Ah".toList, mkObj ("commit".toList) ("tree T1\nparent Rh\n\nfirst".toList)),
   ("Bh".toList, mkObj ("commit".toList) ("tree T2\nparent Ah\n\nsecond".toList))]

/-- `master` at `Ah`, branch `feat` at `Bh` (one commit ahead of master),
HEAD on master: the textbook fast-forward situation. -/
def demoRepo : FitState :=
  ⟨demoObjects, "ref: refs/heads/master\n".toList,
   [("master".toList, "Ah".toList), ("feat".toList, "Bh".toList)],
   some [], none, none, [], []⟩

/-- A repository with one working file `f` (contents `a`), an empty index
file, no staging file. -/
def c3start : FitState :=
  ⟨[], "ref: refs/heads/master\n".toList, [("master".toList, "C0".toList)],
   some [], none, none, [("f".toList, "a".toList)], []⟩

/-- `add f`; edit `f`; `add f` again — the staging area the second add
leaves on disk (each step loads, mutates and saves the staging file). -/
def c3finalStaging : Option StagingArea :=
  match add_workflow demoHash c3start ("f".toList) with
  | .error _ => none
  | .ok s1 =>
    match add_workflow demoHash { s1 with workdir := [("f".toList, "b".toList)] }
        ("f".toList) with
    | .error _ => none
    | .ok s2 => some (read_staging_area s2)

/-- A repository with one tracked working file `f.txt` (index entry
`h1 f.txt`), no staging file: the state just before `rm f.txt`. -/
def c7start : FitState :=
  ⟨[], "ref: refs/heads/master\n".toList, [("master".toList, "C0".toList)],
   some (serializeIndex [("f.txt".toList, "h1".toList)]), none, none,
   [("f.txt".toList, "c1".toList)], []⟩

/-- The state `rm f.txt` leaves behind: staging file `D f.txt`, index entry
removed. -/
def c7after : FitState :=
  match rm_workflow c7start ("f.txt".toList) with
  | .ok s => s
  | .error _ => c7start

/-- A repository for exercising the Materializer: commit `K1` with a tree
holding `a/b.txt`, an index tracking `old.txt`, and an unrelated working
file `keep.txt`. -/
def c9start : FitState :=
  ⟨[("K1".toList, mkObj ("commit".toList) ("tree T1\n\nmsg".toList)),
    ("T1".toList, mkObj ("tree".toList) ("100644 blob B1 a/b.txt\n".toList)),
    ("B1".toList, mkObj ("blob".toList) ("content1".toList))],
   "ref: refs/heads/master\n".toList, [("master".toList, "K0".toList)],
   some ("hOLD old.txt".toList), some ("A x y\n".toList), none,
   [("old.txt".toList, "old".toList), ("keep.txt".toList, "keep".toList)], []⟩

/-- The state `reset_workflow c9start K1` produces. -/
def c9result : FitState :=
  match reset_workflow c9start ("K1".toList) with
  | .ok s => s
  | .error _ => c9start

/-- The single-entry directory listing and index of the C8 counterexample:
the file `a.txt` is tracked under the key `a.txt`, while `read_dir(".")`
yields the entry path `./a.txt`. -/
def c8entries : List DirEntry := [⟨"a.txt".toList, true⟩]

/-- The index of the C8 counterexample. -/
def c8index : List (Chars × Chars) := [("a.txt".toList, "h1".toList)]

/-! ## Association-map lemmas -/

theorem alookup_filter_out (m : List (Chars × Chars)) (k k' : Chars) :
    alookup k' (m.filter (fun e => !(e.1 = k : Bool))) =
      if k' = k then none else alookup k' m := by
  induction m with
  | nil => simp [alookup]
  | cons e es ih =>
    by_cases he : e.1 = k
    · by_cases hk : k' = k
      · subst hk
        simp [List.filter_cons, he, ih]
      · simp [List.filter_cons, he, hk, ih, alookup, Ne.symm hk]
    · by_cases hk : k' = k
      · subst hk
        simp [List.filter_cons, he, ih, alookup]
      · simp [List.filter_cons, he, hk, ih, alookup]

theorem alookup_ainsert_self (m : List (Chars × Chars)) (k v : Chars) :
    alookup k (ainsert m k v) = some v := by
  simp [ainsert, alookup]

theorem alookup_ainsert_ne (m : List (Chars × Chars)) (k v k' : Chars) (h : k' ≠ k) :
    alookup k' (ainsert m k v) = alookup k' m := by
  simp only [ainsert, alookup]
  rw [if_neg (fun hh : k = k' => h hh.symm), alookup_filter_out, if_neg h]

theorem alookup_aremove (m : List (Chars × Chars)) (k k' : Chars) :
    alookup k' (aremove m k) = if k' = k then none else alookup k' m :=
  alookup_filter_out m k k'

theorem ainsert_ainsert_self (m : List (Chars × Chars)) (k v : Chars) :
    ainsert (ainsert m k v) k v = ainsert m k v := by
  simp [ainsert, List.filter_filter]

theorem alookup_isSome_iff (m : List (Chars × Chars)) (k : Chars) :
    (alookup k m).isSome ↔ k ∈ m.map Prod.fst := by
  induction m with
  | nil => simp [alookup]
  | cons e es ih =>
    by_cases he : e.1 = k <;> simp [alookup, he, ih]
    exact fun h => absurd h.symm he

theorem alookup_eq_none_iff (m : List (Chars × Chars)) (k : Chars) :
    alookup k m = none ↔ k ∉ m.map Prod.fst := by
  rw [← alookup_isSome_iff]
  cases alookup k m <;> simp

/-! ## Header and token parsing lemmas -/

theorem splitAtNul_append (a b : Chars) (h : nulChar ∉ a) :
    splitAtNul (a ++ nulChar :: b) = some (a, b) := by
  induction a with
  | nil => simp [splitAtNul]
  | cons c cs ih =>
    have hc : ¬(c = nulChar) := fun he => h (he ▸ List.mem_cons_self c cs)
    simp at h
    simp [splitAtNul, hc, ih h.2]

theorem takeWhile_token (t r : Chars) (h : ∀ c ∈ t, c ≠ ' ') :
    (t ++ ' ' :: r).takeWhile (fun c => !(c = ' ' : Bool)) = t := by
  induction t with
  | nil => simp [List.takeWhile]
  | cons c cs ih =>
    simp at h
    simp [List.takeWhile, h.1, ih h.2]

theorem natCharsCore_digits (P : Char → Prop) (hP : ∀ d : Nat, d < 10 → P (Char.ofNat (48 + d))) :
    ∀ fuel n acc, (∀ c ∈ acc, P c) → ∀ c ∈ natCharsCore fuel n acc, P c := by
  intro fuel
  induction fuel with
  | zero => intro n acc hacc; simpa [natCharsCore] using hacc
  | succ f ih =>
    intro n acc hacc c hc
    have hstep : ∀ c ∈ (Char.ofNat (48 + n % 10) :: acc), P c := by
      intro c hc
      rcases List.mem_cons.mp hc with h | h
      · exact h ▸ hP (n % 10) (Nat.mod_lt _ (by omega))
      · exact hacc c h
    simp only [natCharsCore] at hc
    by_cases hn : n < 10
    · rw [if_pos hn] at hc
      exact hstep c hc
    · rw [if_neg hn] at hc
      exact ih (n / 10) _ hstep c hc

theorem char_ne_of_toNat_ne (c d : Char) (h : c.toNat ≠ d.toNat) : c ≠ d :=
  fun he => h (he ▸ rfl)

theorem natChars_digits (n : Nat) : ∀ c ∈ natChars n, 48 ≤ c.toNat ∧ c.toNat ≤ 57 := by
  refine natCharsCore_digits _ ?_ (n + 1) n [] (by simp)
  exact by decide

theorem natChars_no_nul (n : Nat) : nulChar ∉ natChars n := by
  intro h
  have h' := natChars_digits n _ h
  rw [show nulChar.toNat = 0 from rfl] at h'
  omega

theorem natChars_no_space (n : Nat) : ∀ c ∈ natChars n, c ≠ ' ' := by
  intro c hc
  have h := natChars_digits n _ hc
  exact char_ne_of_toNat_ne _ _ (by rw [show (' ').toNat = 32 from rfl]; omega)

theorem natChars_not_ws (n : Nat) : ∀ c ∈ natChars n, isWs c = false := by
  intro c hc
  have h := natChars_digits n _ hc
  have h1 : c ≠ ' ' := char_ne_of_toNat_ne _ _ (by rw [show (' ').toNat = 32 from rfl]; omega)
  have h2 : c ≠ '\t' := char_ne_of_toNat_ne _ _ (by rw [show ('\t').toNat = 9 from rfl]; omega)
  have h3 : c ≠ '\n' := char_ne_of_toNat_ne _ _ (by rw [show ('\n').toNat = 10 from rfl]; omega)
  have h4 : c ≠ '\r' := char_ne_of_toNat_ne _ _ (by rw [show ('\r').toNat = 13 from rfl]; omega)
  simp [isWs, h1, h2, h3, h4]

/-- A well-formed object type token: the three used in the source qualify. -/
def goodType (t : Chars) : Prop := ∀ c ∈ t, c ≠ ' ' ∧ c ≠ nulChar

theorem goodType_of_literal (t : Chars)
    (ht : t = "blob".toList ∨ t = "tree".toList ∨ t = "commit".toList) : goodType t := by
  have hlift : ∀ u : Chars, (∀ c ∈ u, c ≠ ' ' ∧ c ≠ nulChar) → goodType u := fun _ h => h
  rcases ht with h | h | h <;> subst h <;> exact hlift _ (by decide)

/-- Reading any store key that holds the stream of a written object returns
its type and payload unchanged. -/
theorem read_object_of_alookup (s : FitState) (k t p : Chars) (ht : goodType t)
    (h : alookup k s.objects = some (objHeader t p ++ p)) :
    read_object s k = some (t, p) := by
  have hsplit : splitAtNul (objHeader t p ++ p) =
      some (t ++ ' ' :: natChars p.length, p) := by
    have hassoc : objHeader t p ++ p =
        (t ++ ' ' :: natChars p.length) ++ nulChar :: p := by
      simp [objHeader]
    rw [hassoc]
    apply splitAtNul_append
    intro hmem
    rcases List.mem_append.mp hmem with hm | hm
    · exact (ht _ hm).2 rfl
    · rcases List.mem_cons.mp hm with hm | hm
      · exact absurd hm.symm (by decide)
      · exact natChars_no_nul _ hm
  simp only [read_object, h, hsplit]
  rw [takeWhile_token]
  intro c hc
  exact (ht c hc).1

/-- Reading an object immediately after writing it returns its type and
payload unchanged. -/
theorem read_object_write_object (hashFn : Chars → Chars) (s : FitState)
    (p t : Chars) (ht : goodType t) :
    read_object (write_object hashFn s p t).2 (write_object hashFn s p t).1 =
      some (t, p) := by
  apply read_object_of_alookup _ _ _ _ ht
  simp only [write_object]
  exact alookup_ainsert_self _ _ _

/-! ## SHA-1 digest shape lemmas -/

theorem processBlock_length (hs block : List Nat) : (processBlock hs block).length = 5 := by
  simp [processBlock]

theorem foldl_processBlock_length (blocks : List (List Nat)) :
    ∀ init : List Nat, init.length = 5 →
      (blocks.foldl processBlock init).length = 5 := by
  induction blocks with
  | nil => intro init h; simpa using h
  | cons b bs ih => intro init _; exact ih _ (processBlock_length init b)

theorem length_eq_five_shape (l : List Nat) (h : l.length = 5) :
    ∃ a b c d e, l = [a, b, c, d, e] := by
  match l, h with
  | [a, b, c, d, e], _ => exact ⟨a, b, c, d, e, rfl⟩

theorem sha1Bytes_length (msg : List Nat) : (sha1Bytes msg).length = 20 := by
  have h5 := foldl_processBlock_length (chunk64 (sha1Pad msg))
    [1732584193, 4023233417, 2562383102, 271733878, 3285377520] (by simp)
  obtain ⟨a, b, c, d, e, hl⟩ := length_eq_five_shape _ h5
  show (((chunk64 (sha1Pad msg)).foldl processBlock
      [1732584193, 4023233417, 2562383102, 271733878, 3285377520]).flatMap be32).length = 20
  rw [hl]
  simp [be32]

theorem sha1Bytes_lt (msg : List Nat) : ∀ x ∈ sha1Bytes msg, x < 256 := by
  intro x hx
  have hx' : x ∈ ((chunk64 (sha1Pad msg)).foldl processBlock
      [1732584193, 4023233417, 2562383102, 271733878, 3285377520]).flatMap be32 := hx
  obtain ⟨w, _, hw⟩ := List.mem_flatMap.mp hx'
  simp [be32] at hw
  rcases hw with h | h | h | h <;> omega

theorem toHex_length (bs : List Nat) : (toHex bs).length = 2 * bs.length := by
  induction bs with
  | nil => simp [toHex]
  | cons b bs ih =>
    simp only [toHex, List.flatMap_cons, List.length_append] at *
    simp [hexByte, ih]
    omega

theorem hexDigit_mem (n : Nat) (h : n < 16) : hexDigit n ∈ "0123456789abcdef".toList := by
  interval_cases n <;> decide

theorem toHex_mem (bs : List Nat) (hb : ∀ b ∈ bs, b < 256) :
    ∀ ch ∈ toHex bs, ch ∈ "0123456789abcdef".toList := by
  intro ch hch
  obtain ⟨b, hbmem, hbch⟩ := List.mem_flatMap.mp hch
  have hblt := hb b hbmem
  simp [hexByte] at hbch
  rcases hbch with h | h <;> rw [h]
  · exact hexDigit_mem _ (by omega)
  · exact hexDigit_mem _ (Nat.mod_lt _ (by omega))

theorem sha1Hex_length (m : Chars) : (sha1Hex m).length = 40 := by
  simp [sha1Hex, toHex_length, sha1Bytes_length]

theorem sha1Hex_mem (m : Chars) : ∀ ch ∈ sha1Hex m, ch ∈ "0123456789abcdef".toList :=
  toHex_mem _ (sha1Bytes_lt _)

/-! ## C4 -/

/-- **C4** — Object store hash identity round trip: for every payload `p`
and type `t` among blob, tree and commit, `put(p, t)` returns a 40-character
lowercase-hex hash `H` with `get(H) = (t, p)`, and a second `put(p, t)`
returns the same `H` and leaves the store (hence the stored bytes for `H`)
unchanged. -/
theorem c4_hash_identity_round_trip (s : FitState) (p t : Chars)
    (ht : t = "blob".toList ∨ t = "tree".toList ∨ t = "commit".toList) :
    (write_object sha1Hex s p t).1.length = 40 ∧
    (∀ ch ∈ (write_object sha1Hex s p t).1, ch ∈ "0123456789abcdef".toList) ∧
    read_object (write_object sha1Hex s p t).2 (write_object sha1Hex s p t).1 =
      some (t, p) ∧
    write_object sha1Hex (write_object sha1Hex s p t).2 p t =
      ((write_object sha1Hex s p t).1, (write_object sha1Hex s p t).2) := by
  refine ⟨sha1Hex_length _, sha1Hex_mem _,
    read_object_write_object sha1Hex s p t (goodType_of_literal t ht), ?_⟩
  simp [write_object, ainsert_ainsert_self]

/-- Witness for C4 at a concrete payload and type. -/
theorem c4_hash_identity_round_trip_witness :
    ("blob".toList = "blob".toList ∨ "blob".toList = "tree".toList ∨
      "blob".toList = "commit".toList) ∧
    read_object
        (write_object sha1Hex
          ⟨[], [], [], none, none, none, [], []⟩ ("hi".toList) ("blob".toList)).2
        (write_object sha1Hex
          ⟨[], [], [], none, none, none, [], []⟩ ("hi".toList) ("blob".toList)).1 =
      some ("blob".toList, "hi".toList) :=
  ⟨Or.inl rfl,
   (c4_hash_identity_round_trip ⟨[], [], [], none, none, none, [], []⟩
      ("hi".toList) ("blob".toList) (Or.inl rfl)).2.2.1⟩

/-! ## C2 -/

/-- **C2** — the merge-base computation does not walk the ancestry.  In
`demoRepo` the spec's walk (parent headers of the commit payload, exactly
what `log_workflow` does) yields `[Bh, Ah, Rh]` and `[Ah, Rh]`, so the first
commit of feat's ancestry also in master's ancestry is `Ah`; but
`get_commit_history` hands `get_parent_commit` the object TYPE string
(`read_object(..).unwrap().0`), so every history is a single element and
`find_merge_base` fails with "Merge Base not found" although a merge base
exists. -/
theorem c2_merge_base_walk_defect :
    spec_ancestry demoRepo 10 ("Bh".toList) =
      some ["Bh".toList, "Ah".toList, "Rh".toList] ∧
    spec_ancestry demoRepo 10 ("Ah".toList) =
      some ["Ah".toList, "Rh".toList] ∧
    firstCommon ["Bh".toList, "Ah".toList, "Rh".toList]
      ["Ah".toList, "Rh".toList] = some ("Ah".toList) ∧
    get_commit_history demoRepo 10 ("Bh".toList) = some ["Bh".toList] ∧
    get_commit_history demoRepo 10 ("Ah".toList) = some ["Ah".toList] ∧
    find_merge_base demoRepo 10 ("Ah".toList) ("Bh".toList) =
      Except.error ("Merge Base not found".toList) := by
  decide

/-! ## C1 -/

/-- **C1** — fast-forward merge does not happen.  In `demoRepo` the premise
of the claim holds: the current branch is master, feat is a different branch
whose tip's first-parent ancestry contains master's tip `Ah`.  Running
`merge feat` must, per the claim, leave `current_commit() = Bh`; instead the
source fails with "Merge Base not found" (the ancestry-walk defect of C2)
and performs no state change — and even with correct histories its
fast-forward guard tests `merge_base == branch_commit` instead of
`merge_base == current_commit`. -/
theorem c1_fast_forward_defect :
    get_current_branch demoRepo = "master".toList ∧
    get_current_commit demoRepo = some ("Ah".toList) ∧
    get_branch_commit demoRepo ("feat".toList) = some ("Bh".toList) ∧
    ((spec_ancestry demoRepo 10 ("Bh".toList)).getD []).contains ("Ah".toList) = true ∧
    merge_workflow demoRepo 10 ("feat".toList) =
      Except.error ("Merge Base not found".toList) := by
  decide

/-! ## C3 -/

/-- **C3** — the partition-uniqueness invariant is violated: after
`add f; edit f; add f`, the path `f` is simultaneously in the `Added` and
the `Modified` partition of the reloaded staging delta (the first add
classifies `f` as added; the second sees it in the index at a different
hash and also records it as modified without removing the added entry). -/
theorem c3_staging_partitions_overlap :
    c3finalStaging.map (fun sa =>
      (alookup ("f".toList) sa.added).isSome &&
        (alookup ("f".toList) sa.modified).isSome) = some true := by
  decide

/-! ## C8 -/

/-- **C8**, counterexample — an index-tracked file is listed as untracked:
with the file `a.txt` tracked in the index under the key `a.txt` (as
`add a.txt` records it), the untracked section still lists it, because the
membership test uses the `"./"`-prefixed `read_dir` entry path. -/
theorem c8_tracked_file_listed_untracked :
    untracked_files c8entries c8index = ["./a.txt".toList] ∧
    (alookup ("a.txt".toList) c8index).isSome = true ∧
    entryPath ⟨"a.txt".toList, true⟩ = "./a.txt".toList := by
  decide

/-- **C8**, amended — the untracked section lists exactly the `read_dir(".")`
entries that are regular files, whose entry path does not component-start
with `.fit`, and whose `"./"`-prefixed ENTRY PATH (not the file's index key)
is absent from the index; a file tracked under the bare relative path is
therefore still listed. -/
theorem c8_untracked_exactly (entries : List DirEntry)
    (index : List (Chars × Chars)) (p : Chars) :
    p ∈ untracked_files entries index ↔
      ∃ e, e ∈ entries ∧ p = entryPath e ∧ e.isFile = true ∧
        pathStarts (entryPath e) (".fit".toList) = false ∧
        alookup (entryPath e) index = none := by
  simp only [untracked_files, List.mem_map, List.mem_filter,
    Bool.and_eq_true, Bool.not_eq_true', Option.isNone_iff_eq_none]
  constructor
  · rintro ⟨e, ⟨he, ⟨hf, hs⟩, hn⟩, hp⟩
    exact ⟨e, he, hp.symm, hf, hs, hn⟩
  · rintro ⟨e, he, hp, hf, hs, hn⟩
    exact ⟨e, ⟨he, ⟨hf, hs⟩, hn⟩, hp.symm⟩

/-! ## Whitespace-token lemmas -/

theorem cleanTok_iff (t : Chars) :
    cleanTok t = true ↔ t ≠ [] ∧ ∀ c ∈ t, isWs c = false := by
  simp [cleanTok, List.isEmpty_iff, List.all_eq_true]

theorem splitWsAux_token (t r acc : Chars) (h : ∀ c ∈ t, isWs c = false) :
    splitWsAux (t ++ r) acc = splitWsAux r (t.reverse ++ acc) := by
  induction t generalizing acc with
  | nil => simp
  | cons c cs ih =>
    simp only [List.mem_cons, forall_eq_or_imp] at h
    simp only [List.cons_append, List.append_eq, splitWsAux, h.1,
      Bool.false_eq_true, if_false]
    rw [ih _ h.2]
    simp

theorem splitWs_token_cons (t r : Chars) (hne : t ≠ [])
    (hcl : ∀ c ∈ t, isWs c = false) :
    splitWs (t ++ ' ' :: r) = t :: splitWs r := by
  unfold splitWs
  rw [splitWsAux_token t (' ' :: r) [] hcl]
  have : isWs ' ' = true := by decide
  simp [splitWsAux, this, List.isEmpty_iff, hne]

theorem splitWs_single (t : Chars) (hne : t ≠ [])
    (hcl : ∀ c ∈ t, isWs c = false) :
    splitWs t = [t] := by
  unfold splitWs
  rw [← List.append_nil t, splitWsAux_token t [] [] hcl]
  simp [splitWsAux, List.isEmpty_iff, hne]

/-! ## Line-splitting lemmas -/

theorem splitNl_no_nl (a : Chars) (h : '\n' ∉ a) : splitNl a = [a] := by
  induction a with
  | nil => rfl
  | cons c cs ih =>
    simp only [List.mem_cons, not_or] at h
    simp only [splitNl]
    rw [if_neg (fun he => h.1 he.symm), ih h.2]

theorem splitNl_append (a b : Chars) (h : '\n' ∉ a) :
    splitNl (a ++ '\n' :: b) = a :: splitNl b := by
  induction a with
  | nil => simp [splitNl]
  | cons c cs ih =>
    simp only [List.mem_cons, not_or] at h
    simp only [List.cons_append, List.append_eq, splitNl]
    rw [if_neg (fun he => h.1 he.symm), ih h.2]

theorem glMem {α : Type} : ∀ (l : List α) (a : α), l.getLast? = some a → a ∈ l := by
  intro l
  induction l with
  | nil => intro a h; simp at h
  | cons c cs ih =>
    intro a h
    cases cs with
    | nil =>
      simp only [List.getLast?_singleton, Option.some.injEq] at h
      simp [h]
    | cons d ds =>
      rw [List.getLast?_cons_cons] at h
      exact List.mem_cons_of_mem _ (ih a h)

theorem stripCR_eq_self (l : Chars) (h : '\r' ∉ l) : stripCR l = l := by
  unfold stripCR
  rw [if_neg]
  exact fun hl => h (glMem l '\r' hl)

theorem map_stripCR_self (L : List Chars) (h : ∀ l ∈ L, '\r' ∉ l) :
    L.map stripCR = L := by
  induction L with
  | nil => rfl
  | cons x xs ih =>
    simp only [List.mem_cons, forall_eq_or_imp] at h
    simp [stripCR_eq_self x h.1, ih h.2]

/-- A serialization line that round-trips through `str::lines`. -/
def lineOk (l : Chars) : Prop := l ≠ [] ∧ '\n' ∉ l ∧ '\r' ∉ l

theorem splitNl_joinNl (L : List Chars) (hL : L ≠ [])
    (h : ∀ l ∈ L, '\n' ∉ l) : splitNl (joinNl L) = L := by
  induction L with
  | nil => exact absurd rfl hL
  | cons x xs ih =>
    cases xs with
    | nil => exact splitNl_no_nl x (h x (by simp))
    | cons y ys =>
      have : joinNl (x :: y :: ys) = x ++ '\n' :: joinNl (y :: ys) := rfl
      rw [this, splitNl_append _ _ (h x (by simp)),
        ih (by simp) (fun l hl => h l (List.mem_cons_of_mem _ hl))]

theorem rustLines_eq (s : Chars) :
    rustLines s =
      (if (splitNl s).getLast? = some [] then (splitNl s).dropLast
       else splitNl s).map stripCR := rfl

theorem rustLines_joinNl (L : List Chars) (h : ∀ l ∈ L, lineOk l) :
    rustLines (joinNl L) = L := by
  cases L with
  | nil => decide
  | cons x xs =>
    rw [rustLines_eq, splitNl_joinNl _ (by simp) (fun l hl => (h l hl).2.1)]
    have hne : (x :: xs) ≠ ([] : List Chars) := by simp
    have hlast := List.getLast?_eq_getLast_of_ne_nil hne
    have hmem := glMem _ _ hlast
    rw [hlast, if_neg (fun hc => (h _ hmem).1 (Option.some.inj hc))]
    exact map_stripCR_self _ (fun l hl => (h l hl).2.2)

theorem splitNl_terminated (L : List Chars) (h : ∀ l ∈ L, '\n' ∉ l) :
    splitNl ((L.map (fun l => l ++ ['\n'])).flatten) = L ++ [[]] := by
  induction L with
  | nil => simp [splitNl]
  | cons x xs ih =>
    simp only [List.mem_cons, forall_eq_or_imp] at h
    simp only [List.map_cons, List.flatten_cons]
    have : (x ++ ['\n']) ++ (xs.map (fun l => l ++ ['\n'])).flatten =
        x ++ '\n' :: (xs.map (fun l => l ++ ['\n'])).flatten := by simp
    rw [this, splitNl_append _ _ h.1, ih h.2]
    simp

theorem rustLines_terminated (L : List Chars)
    (h : ∀ l ∈ L, '\n' ∉ l ∧ '\r' ∉ l) :
    rustLines ((L.map (fun l => l ++ ['\n'])).flatten) = L := by
  rw [rustLines_eq, splitNl_terminated L (fun l hl => (h l hl).1),
    List.getLast?_concat, if_pos rfl, List.dropLast_concat]
  exact map_stripCR_self L (fun l hl => (h l hl).2)

/-! ## Index serialization lemmas -/

theorem alookup_append (a b : List (Chars × Chars)) (k : Chars) :
    alookup k (a ++ b) =
      match alookup k a with
      | some v => some v
      | none => alookup k b := by
  induction a with
  | nil => simp [alookup]
  | cons e es ih =>
    by_cases he : e.1 = k <;> simp [alookup, he, ih]

theorem alookup_foldl_ainsert (I : List (Chars × Chars)) :
    ∀ acc k, alookup k (I.foldl (fun m e => ainsert m e.1 e.2) acc) =
      match alookup k I.reverse with
      | some v => some v
      | none => alookup k acc := by
  induction I with
  | nil => intro acc k; simp [alookup]
  | cons e es ih =>
    intro acc k
    simp only [List.foldl_cons, List.reverse_cons]
    rw [ih, alookup_append]
    cases hrev : alookup k es.reverse with
    | some v => rfl
    | none =>
      by_cases he : e.1 = k
      · subst he
        simp [alookup, alookup_ainsert_self]
      · have hk : k ≠ e.1 := fun hkk => he hkk.symm
        rw [alookup_ainsert_ne acc e.1 e.2 k hk]
        simp [alookup, he]

theorem alookup_reverse_nodup (I : List (Chars × Chars))
    (hnd : (I.map Prod.fst).Nodup) (k : Chars) :
    alookup k I.reverse = alookup k I := by
  induction I with
  | nil => rfl
  | cons e es ih =>
    simp only [List.map_cons, List.nodup_cons] at hnd
    simp only [List.reverse_cons]
    rw [alookup_append]
    by_cases he : e.1 = k
    · subst he
      have hnone : alookup e.1 es.reverse = none := by
        rw [alookup_eq_none_iff]
        simpa using hnd.1
      rw [hnone]
      simp [alookup]
    · have h1 : alookup k [e] = none := by simp [alookup, he]
      have h2 : alookup k (e :: es) = alookup k es := by simp [alookup, he]
      rw [h1, h2, ← ih hnd.2]
      cases alookup k es.reverse <;> rfl

theorem alookup_normIdx (I : List (Chars × Chars))
    (hnd : (I.map Prod.fst).Nodup) (k : Chars) :
    alookup k (normIdx I) = alookup k I := by
  rw [normIdx, alookup_foldl_ainsert, alookup_reverse_nodup I hnd]
  cases alookup k I <;> rfl

theorem not_mem_of_clean (t : Chars) (hcl : ∀ c ∈ t, isWs c = false)
    (d : Char) (hd : isWs d = true) : d ∉ t := by
  intro hmem
  rw [hcl d hmem] at hd
  exact Bool.false_ne_true hd

theorem indexLine_ok (e : Chars × Chars) (h1 : cleanTok e.1 = true)
    (h2 : cleanTok e.2 = true) : lineOk (e.2 ++ ' ' :: e.1) := by
  obtain ⟨h1ne, h1cl⟩ := (cleanTok_iff _).mp h1
  obtain ⟨h2ne, h2cl⟩ := (cleanTok_iff _).mp h2
  refine ⟨by simp, ?_, ?_⟩
  · intro hmem
    rcases List.mem_append.mp hmem with hm | hm
    · exact not_mem_of_clean _ h2cl '\n' (by decide) hm
    · rcases List.mem_cons.mp hm with hm | hm
      · exact absurd hm (by decide)
      · exact not_mem_of_clean _ h1cl '\n' (by decide) hm
  · intro hmem
    rcases List.mem_append.mp hmem with hm | hm
    · exact not_mem_of_clean _ h2cl '\r' (by decide) hm
    · rcases List.mem_cons.mp hm with hm | hm
      · exact absurd hm (by decide)
      · exact not_mem_of_clean _ h1cl '\r' (by decide) hm

theorem parseIndexLines_serialized (I : List (Chars × Chars))
    (h : ∀ e ∈ I, cleanTok e.1 = true ∧ cleanTok e.2 = true) :
    ∀ acc, parseIndexLines (I.map (fun e => e.2 ++ ' ' :: e.1)) acc =
      some (I.foldl (fun m e => ainsert m e.1 e.2) acc) := by
  induction I with
  | nil => intro acc; rfl
  | cons e es ih =>
    intro acc
    simp only [List.mem_cons, forall_eq_or_imp] at h
    obtain ⟨⟨h1, h2⟩, hes⟩ := h
    obtain ⟨h1ne, h1cl⟩ := (cleanTok_iff _).mp h1
    obtain ⟨h2ne, h2cl⟩ := (cleanTok_iff _).mp h2
    simp only [List.map_cons, parseIndexLines]
    rw [splitWs_token_cons _ _ h2ne h2cl, splitWs_single _ h1ne h1cl]
    exact ih hes (ainsert acc e.1 e.2)

theorem read_index_write_index (s : FitState) (I : List (Chars × Chars))
    (h : ∀ e ∈ I, cleanTok e.1 = true ∧ cleanTok e.2 = true) :
    read_index (write_index s I) = some (normIdx I) := by
  simp only [read_index, write_index, serializeIndex]
  rw [rustLines_joinNl]
  · exact parseIndexLines_serialized I h []
  · intro l hl
    obtain ⟨e, he, rfl⟩ := List.mem_map.mp hl
    exact indexLine_ok e (h e he).1 (h e he).2

/-! ## C10 -/

/-- **C10** — Index serialization round trip: for an index whose paths and
hashes are nonempty and whitespace-free (and whose paths, being map keys,
are distinct), writing the index file and reading it back yields the same
path-to-hash mapping. -/
theorem c10_index_serialization_round_trip (s : FitState)
    (I : List (Chars × Chars))
    (hclean : ∀ e ∈ I, cleanTok e.1 = true ∧ cleanTok e.2 = true)
    (hnd : (I.map Prod.fst).Nodup) :
    ∃ I', read_index (write_index s I) = some I' ∧
      ∀ p, alookup p I' = alookup p I :=
  ⟨normIdx I, read_index_write_index s I hclean,
   fun p => alookup_normIdx I hnd p⟩

/-- Witness for C10 at a two-entry index. -/
theorem c10_index_serialization_round_trip_witness :
    ((∀ e ∈ ([("a.txt".toList, "h1".toList), ("b.txt".toList, "h2".toList)] :
        List (Chars × Chars)), cleanTok e.1 = true ∧ cleanTok e.2 = true) ∧
      (([("a.txt".toList, "h1".toList),
         ("b.txt".toList, "h2".toList)] : List (Chars × Chars)).map
          Prod.fst).Nodup) ∧
    ∃ I', read_index (write_index ⟨[], [], [], none, none, none, [], []⟩
        [("a.txt".toList, "h1".toList), ("b.txt".toList, "h2".toList)]) =
          some I' ∧
      ∀ p, alookup p I' =
        alookup p [("a.txt".toList, "h1".toList), ("b.txt".toList, "h2".toList)] :=
  ⟨⟨by decide, by decide⟩,
   c10_index_serialization_round_trip ⟨[], [], [], none, none, none, [], []⟩
     [("a.txt".toList, "h1".toList), ("b.txt".toList, "h2".toList)]
     (by decide) (by decide)⟩

/-! ## Trim lemmas -/

theorem dropWhile_isWs_eq_self (l : Chars)
    (h : ∀ c, l.head? = some c → isWs c = false) : l.dropWhile isWs = l := by
  cases l with
  | nil => rfl
  | cons c cs => simp [List.dropWhile_cons, h c rfl]

theorem reverse_head_getLast (l : Chars) : l.reverse.head? = l.getLast? := by
  induction l with
  | nil => rfl
  | cons c cs ih =>
    cases cs with
    | nil => rfl
    | cons d ds =>
      rw [List.reverse_cons, List.head?_append_of_ne_nil _ (by simp), ih,
        List.getLast?_cons_cons]

theorem trimChars_eq_self (l : Chars)
    (hh : ∀ c, l.head? = some c → isWs c = false)
    (hl : ∀ c, l.getLast? = some c → isWs c = false) :
    trimChars l = l := by
  unfold trimChars
  rw [dropWhile_isWs_eq_self l hh,
    dropWhile_isWs_eq_self l.reverse
      (fun c hc => hl c (by rwa [reverse_head_getLast] at hc)),
    List.reverse_reverse]

theorem trimChars_append_nl (x : Chars)
    (hh : ∀ c, x.head? = some c → isWs c = false)
    (hl : ∀ c, x.getLast? = some c → isWs c = false) :
    trimChars (x ++ ['\n']) = x := by
  cases x with
  | nil => decide
  | cons c cs =>
    simp only [List.cons_append]
    unfold trimChars
    have h1 : (c :: (cs ++ ['\n'])).dropWhile isWs = c :: (cs ++ ['\n']) := by
      apply dropWhile_isWs_eq_self
      intro d hd
      simp only [List.head?_cons, Option.some.injEq] at hd
      exact hh d (by simp [← hd])
    rw [h1]
    have h2 : (c :: (cs ++ ['\n'])).reverse = '\n' :: (cs.reverse ++ [c]) := by simp
    rw [h2]
    have h3 : ('\n' :: (cs.reverse ++ [c])).dropWhile isWs =
        (cs.reverse ++ [c]).dropWhile isWs := by
      rw [List.dropWhile_cons]
      simp [isWs]
    rw [h3]
    have h4 : (cs.reverse ++ [c]).dropWhile isWs = cs.reverse ++ [c] := by
      apply dropWhile_isWs_eq_self
      intro d hd
      have hgl : (c :: cs).reverse.head? = some d := by simpa using hd
      rw [reverse_head_getLast] at hgl
      exact hl d hgl
    rw [h4]
    have h5 : cs.reverse ++ [c] = (c :: cs).reverse := by simp
    rw [h5, List.reverse_reverse]

/-! ## Stash-stack lemmas -/

theorem lineOk_of_clean (l : Chars) (h : cleanTok l = true) : lineOk l := by
  obtain ⟨hne, hcl⟩ := (cleanTok_iff l).mp h
  exact ⟨hne, not_mem_of_clean _ hcl '\n' (by decide),
    not_mem_of_clean _ hcl '\r' (by decide)⟩

theorem head?_append_left {α : Type} (a b : List α) (h : a ≠ []) :
    (a ++ b).head? = a.head? :=
  List.head?_append_of_ne_nil a h

theorem joinNl_head? (t : Chars) (ts : List Chars) (ht : t ≠ []) :
    (joinNl (t :: ts)).head? = t.head? := by
  cases ts with
  | nil => rfl
  | cons y ys => exact head?_append_left t _ ht

theorem joinNl_ne_nil (t : Chars) (ts : List Chars) (ht : t ≠ []) :
    joinNl (t :: ts) ≠ [] := by
  cases ts with
  | nil => exact ht
  | cons y ys =>
    cases t with
    | nil => exact absurd rfl ht
    | cons c cs => simp [joinNl]

theorem joinNl_getLast_clean (L : List Chars) (h : ∀ l ∈ L, cleanTok l = true) :
    ∀ c, (joinNl L).getLast? = some c → isWs c = false := by
  induction L with
  | nil => intro c hc; simp [joinNl] at hc
  | cons x xs ih =>
    cases xs with
    | nil =>
      intro c hc
      exact ((cleanTok_iff x).mp (h x (by simp))).2 c (glMem _ _ hc)
    | cons y ys =>
      intro c hc
      have hx : joinNl (x :: y :: ys) = x ++ '\n' :: joinNl (y :: ys) := rfl
      rw [hx, List.getLast?_append_cons] at hc
      have hyne : y ≠ [] := ((cleanTok_iff y).mp (h y (by simp))).1
      rw [show ('\n' :: joinNl (y :: ys)) = ['\n'] ++ joinNl (y :: ys) from rfl,
        List.getLast?_append_of_ne_nil _ (joinNl_ne_nil y ys hyne)] at hc
      exact ih (fun l hl => h l (List.mem_cons_of_mem _ hl)) c hc

theorem headMem {α : Type} (l : List α) (c : α) (h : l.head? = some c) : c ∈ l := by
  cases l with
  | nil => simp at h
  | cons a as =>
    simp only [List.head?_cons, Option.some.injEq] at h
    simp [h]

theorem trim_joinNl_clean (L : List Chars) (h : ∀ l ∈ L, cleanTok l = true) :
    trimChars (joinNl L) = joinNl L := by
  cases L with
  | nil => rfl
  | cons t ts =>
    have htc := (cleanTok_iff t).mp (h t (by simp))
    apply trimChars_eq_self
    · intro c hc
      rw [joinNl_head? t ts htc.1] at hc
      exact htc.2 c (headMem t c hc)
    · exact joinNl_getLast_clean _ h

/-- The stash-file invariant: the file's lines are the stack (newest first),
its trimmed contents are the newline-join of the stack, and every stack
entry is a clean hash token. -/
def stashInv (s : FitState) (stack : List Chars) : Prop :=
  rustLines (s.stash.getD []) = stack ∧
  trimChars (s.stash.getD []) = joinNl stack ∧
  ∀ x ∈ stack, cleanTok x = true

theorem stashInv_push (s : FitState) (stack : List Chars) (S : Chars)
    (hS : cleanTok S = true) (hinv : stashInv s stack) :
    stashInv (write_stashing_area s S) (S :: stack) := by
  obtain ⟨hlines, htrim, hclean⟩ := hinv
  have hSc := (cleanTok_iff S).mp hS
  have hcontent : (write_stashing_area s S).stash.getD [] =
      S ++ '\n' :: joinNl stack := by
    simp [write_stashing_area, htrim]
  refine ⟨?_, ?_, ?_⟩
  · rw [hcontent]
    cases stack with
    | nil =>
      have hterm := rustLines_terminated [S] (by
        intro l hl
        simp only [List.mem_singleton] at hl
        subst hl
        exact ⟨not_mem_of_clean _ hSc.2 '\n' (by decide),
          not_mem_of_clean _ hSc.2 '\r' (by decide)⟩)
      simpa [joinNl] using hterm
    | cons t ts =>
      have hj : S ++ '\n' :: joinNl (t :: ts) = joinNl (S :: t :: ts) := rfl
      rw [hj]
      refine rustLines_joinNl _ (fun l hl => lineOk_of_clean l ?_)
      rcases List.mem_cons.mp hl with h | h
      · exact h ▸ hS
      · exact hclean l h
  · rw [hcontent]
    cases stack with
    | nil =>
      have htr := trimChars_append_nl S
        (fun c hc => hSc.2 c (headMem S c hc))
        (fun c hc => hSc.2 c (glMem S c hc))
      simpa [joinNl] using htr
    | cons t ts =>
      have hj : S ++ '\n' :: joinNl (t :: ts) = joinNl (S :: t :: ts) := rfl
      rw [hj]
      refine trim_joinNl_clean _ (fun l hl => ?_)
      rcases List.mem_cons.mp hl with h | h
      · exact h ▸ hS
      · exact hclean l h
  · intro x hx
    rcases List.mem_cons.mp hx with h | h
    · exact h ▸ hS
    · exact hclean x h

theorem stashInv_pushAll (L : List Chars) (hL : ∀ x ∈ L, cleanTok x = true) :
    ∀ s stack, stashInv s stack → stashInv (pushAll s L) (L.reverse ++ stack) := by
  induction L with
  | nil => intro s stack h; simpa [pushAll] using h
  | cons x xs ih =>
    intro s stack h
    have hx := hL x (by simp)
    have hr := ih (fun y hy => hL y (List.mem_cons_of_mem _ hy))
      (write_stashing_area s x) (x :: stack) (stashInv_push s stack x hx h)
    have hps : pushAll s (x :: xs) = pushAll (write_stashing_area s x) xs := rfl
    rw [hps]
    have harr : xs.reverse ++ (x :: stack) = (x :: xs).reverse ++ stack := by simp
    rwa [harr] at hr

theorem readSeq_pops (stack : List Chars) :
    ∀ s, stashInv s stack → (readSeq stack.length s).1 = stack := by
  induction stack with
  | nil => intro s _; rfl
  | cons t ts ih =>
    intro s hinv
    obtain ⟨hlines, htrim, hclean⟩ := hinv
    cases hs : s.stash with
    | none =>
      rw [hs] at hlines
      have hrl : rustLines ((none : Option Chars).getD []) = [] := by decide
      rw [hrl] at hlines
      exact absurd hlines (by simp)
    | some content =>
      rw [hs] at hlines htrim
      simp only [Option.getD_some] at hlines htrim
      have hread : read_stashing_area s =
          (some t, { s with stash := some (joinNl ts) }) := by
        simp [read_stashing_area, hs, hlines]
      have hclean' : ∀ x ∈ ts, cleanTok x = true :=
        fun x hx => hclean x (List.mem_cons_of_mem _ hx)
      have hinv' : stashInv { s with stash := some (joinNl ts) } ts := by
        refine ⟨?_, ?_, hclean'⟩
        · simp only [Option.getD_some]
          exact rustLines_joinNl ts (fun l hl => lineOk_of_clean l (hclean' l hl))
        · simp only [Option.getD_some]
          exact trim_joinNl_clean ts hclean'
      show (readSeq (ts.length + 1) s).1 = t :: ts
      simp only [readSeq, hread]
      simp [ih _ hinv']

/-! ## C6 -/

/-- **C6** — Stash stack LIFO order: pushing stash hashes `S1..Sn` (oldest
first) leaves the stash file holding them newest-first; `n` successive pops
remove and return `Sn, …, S1` in that order; and `pop_stashed_content`
materializes (resets to) exactly the hash each pop removes. -/
theorem c6_stash_lifo (s : FitState) (L : List Chars)
    (hL : ∀ x ∈ L, cleanTok x = true) (hs : s.stash = none) :
    stashLines (pushAll s L) = L.reverse ∧
    (readSeq L.length (pushAll s L)).1 = L.reverse ∧
    ∀ (t : FitState) (h : Chars) (t' s'' : FitState),
      read_stashing_area t = (some h, t') → reset_workflow t' h = .ok s'' →
      pop_stashed_content t = .ok (h, s'') := by
  have hbase : stashInv s [] := by
    refine ⟨?_, ?_, by simp⟩
    · rw [hs]; decide
    · rw [hs]; decide
  have hfull := stashInv_pushAll L hL s [] hbase
  rw [List.append_nil] at hfull
  refine ⟨hfull.1, ?_, ?_⟩
  · have hp := readSeq_pops L.reverse (pushAll s L) hfull
    rwa [List.length_reverse] at hp
  · intro t h t' s'' hread hreset
    simp [pop_stashed_content, hread, hreset, Except.map]

/-- Witness for C6 with two concrete stash hashes. -/
theorem c6_stash_lifo_witness :
    (∀ x ∈ (["s1".toList, "s2".toList] : List Chars), cleanTok x = true) ∧
    stashLines (pushAll ⟨[], [], [], none, none, none, [], []⟩
        ["s1".toList, "s2".toList]) = ["s2".toList, "s1".toList] ∧
    (readSeq 2 (pushAll ⟨[], [], [], none, none, none, [], []⟩
        ["s1".toList, "s2".toList])).1 = ["s2".toList, "s1".toList] :=
  ⟨by decide,
   (c6_stash_lifo ⟨[], [], [], none, none, none, [], []⟩
      ["s1".toList, "s2".toList] (by decide) rfl).1,
   (c6_stash_lifo ⟨[], [], [], none, none, none, [], []⟩
      ["s1".toList, "s2".toList] (by decide) rfl).2.1⟩

/-! ## Commit-workflow lemmas -/

theorem get_current_commit_set_objects (s : FitState) (o : List (Chars × Chars)) :
    get_current_commit { s with objects := o } = get_current_commit s := rfl

theorem get_current_branch_set_objects (s : FitState) (o : List (Chars × Chars)) :
    get_current_branch { s with objects := o } = get_current_branch s := rfl

theorem read_object_congr (s s' : FitState) (h : s.objects = s'.objects)
    (k : Chars) : read_object s k = read_object s' k := by
  simp [read_object, h]

theorem staging_isSome_of_nonempty (s : FitState)
    (h : saIsEmpty (read_staging_area s) = false) : s.staging.isSome := by
  cases hs : s.staging with
  | none =>
    have : read_staging_area s = StagingArea.new := by simp [read_staging_area, hs]
    rw [this] at h
    exact absurd h (by decide)
  | some c => rfl

/-! ## C7 -/

/-- **C7** — Commit empty-staging no-op, refuted in its otherwise-direction:
`rm f.txt` writes the staging file `D f.txt` — the serialization of a
Staging Delta whose Deleted partition is non-empty — yet the commit's
reload keeps only three-token lines and silently drops the two-token
`D <path>` line, loads an empty delta, reports nothing-to-commit and
returns the state unchanged: the pipeline does not run, so a staged
deletion can never be committed. -/
theorem c7_commit_staged_deletion_defect :
    rm_workflow c7start ("f.txt".toList) = .ok c7after ∧
    c7after.staging =
      some (serializeSA (StagingArea.new.delete ("f.txt".toList))) ∧
    saIsEmpty (StagingArea.new.delete ("f.txt".toList)) = false ∧
    read_staging_area c7after = StagingArea.new ∧
    commit_workflow demoHash c7after ("m".toList) =
      .ok (.nothingToCommit, c7after) := by
  decide

/-! ## Materializer lemmas -/

theorem contains_iff (l : List Chars) (a : Chars) : l.contains a = true ↔ a ∈ l :=
  List.elem_iff

/-- What the materialization loop does: all fields except the working tree
and the directory set are untouched; directories only grow; files outside
the row paths keep their contents; with distinct row paths, each row's file
ends up holding its blob. -/
theorem applyRows_spec (rows : List (Chars × Chars)) :
    ∀ (s : FitState) (acc : List (Chars × Chars)) (s3 : FitState)
      (ni : List (Chars × Chars)),
      applyRows s rows acc = some (s3, ni) →
      (s3.objects = s.objects ∧ s3.head = s.head ∧ s3.refs = s.refs ∧
        s3.indexFile = s.indexFile ∧ s3.staging = s.staging ∧
        s3.stash = s.stash) ∧
      (∀ d ∈ s.dirs, d ∈ s3.dirs) ∧
      (∀ p, p ∉ rows.map (fun r => r.2) →
        alookup p s3.workdir = alookup p s.workdir) ∧
      ((rows.map (fun r => r.2)).Nodup →
        ∀ r ∈ rows, ∃ ty blob, read_object s r.1 = some (ty, blob) ∧
          alookup r.2 s3.workdir = some blob) := by
  induction rows with
  | nil =>
    intro s acc s3 ni h
    simp only [applyRows, Option.some.injEq, Prod.mk.injEq] at h
    obtain ⟨h1, _⟩ := h
    subst h1
    exact ⟨⟨rfl, rfl, rfl, rfl, rfl, rfl⟩, fun d hd => hd,
      fun p _ => rfl, fun _ r hr => absurd hr (by simp)⟩
  | cons r rest ih =>
    intro s acc s3 ni h
    obtain ⟨fh, fp⟩ := r
    simp only [applyRows] at h
    cases hro : read_object s fh with
    | none => rw [hro] at h; exact absurd h (by simp)
    | some tyblob =>
      obtain ⟨ty, blob⟩ := tyblob
      rw [hro] at h
      set s1 : FitState :=
        { s with dirs := s.dirs ++ ancestorDirs fp,
                 workdir := ainsert s.workdir fp blob } with hs1
      have spec := ih s1 (ainsert acc fp fh) s3 ni h
      obtain ⟨hfields, hdirs, hframe, hhit⟩ := spec
      have hobj1 : s1.objects = s.objects := rfl
      refine ⟨?_, ?_, ?_, ?_⟩
      · exact ⟨hfields.1.trans hobj1, hfields.2.1, hfields.2.2.1,
          hfields.2.2.2.1, hfields.2.2.2.2.1, hfields.2.2.2.2.2⟩
      · intro d hd
        exact hdirs d (by simp [hs1, hd])
      · intro p hp
        simp only [List.map_cons, List.mem_cons, not_or] at hp
        rw [hframe p hp.2]
        have : alookup p s1.workdir = alookup p s.workdir := by
          rw [hs1]
          exact alookup_ainsert_ne _ _ _ _ hp.1
        exact this
      · intro hnd rr hrr
        simp only [List.map_cons, List.nodup_cons] at hnd
        rcases List.mem_cons.mp hrr with hr1 | hr2
        · subst hr1
          refine ⟨ty, blob, hro, ?_⟩
          rw [hframe _ hnd.1]
          rw [hs1]
          exact alookup_ainsert_self _ _ _
        · obtain ⟨ty', blob', hread', hlook'⟩ := hhit hnd.2 rr hr2
          refine ⟨ty', blob', ?_, hlook'⟩
          rwa [read_object_congr s1 s hobj1] at hread'

/-- What the deletion loop does: only the working tree changes; a current
file outside the target set ends up absent; every other path keeps its
contents. -/
theorem deleteGone_spec (targets : List Chars) (cur : List Chars) :
    ∀ s : FitState,
      ((deleteGone targets s cur).objects = s.objects ∧
        (deleteGone targets s cur).head = s.head ∧
        (deleteGone targets s cur).refs = s.refs ∧
        (deleteGone targets s cur).indexFile = s.indexFile ∧
        (deleteGone targets s cur).staging = s.staging ∧
        (deleteGone targets s cur).stash = s.stash ∧
        (deleteGone targets s cur).dirs = s.dirs) ∧
      (∀ p, p ∈ cur → p ∉ targets →
        alookup p (deleteGone targets s cur).workdir = none) ∧
      (∀ p, p ∉ cur ∨ p ∈ targets →
        alookup p (deleteGone targets s cur).workdir = alookup p s.workdir) := by
  induction cur with
  | nil =>
    intro s
    exact ⟨⟨rfl, rfl, rfl, rfl, rfl, rfl, rfl⟩,
      fun p hp _ => absurd hp (by simp), fun p _ => rfl⟩
  | cons f fs ih =>
    intro s
    set s1 := (if !(targets.contains f) && (alookup f s.workdir).isSome then
        { s with workdir := aremove s.workdir f } else s) with hs1
    have hstep : deleteGone targets s (f :: fs) = deleteGone targets s1 fs := rfl
    obtain ⟨hfields, hdel, hkeep⟩ := ih s1
    have hs1fields : s1.objects = s.objects ∧ s1.head = s.head ∧
        s1.refs = s.refs ∧ s1.indexFile = s.indexFile ∧
        s1.staging = s.staging ∧ s1.stash = s.stash ∧ s1.dirs = s.dirs := by
      rw [hs1]
      split <;> exact ⟨rfl, rfl, rfl, rfl, rfl, rfl, rfl⟩
    have hs1keep : ∀ p, p ≠ f → alookup p s1.workdir = alookup p s.workdir := by
      intro p hp
      rw [hs1]
      split
      · show alookup p (aremove s.workdir f) = alookup p s.workdir
        rw [alookup_aremove, if_neg hp]
      · rfl
    refine ⟨?_, ?_, ?_⟩
    · rw [hstep]
      exact ⟨hfields.1.trans hs1fields.1, hfields.2.1.trans hs1fields.2.1,
        hfields.2.2.1.trans hs1fields.2.2.1,
        hfields.2.2.2.1.trans hs1fields.2.2.2.1,
        hfields.2.2.2.2.1.trans hs1fields.2.2.2.2.1,
        hfields.2.2.2.2.2.1.trans hs1fields.2.2.2.2.2.1,
        hfields.2.2.2.2.2.2.trans hs1fields.2.2.2.2.2.2⟩
    · intro p hp hpt
      rw [hstep]
      rcases List.mem_cons.mp hp with h1 | h2
      · subst h1
        by_cases hmem : p ∈ fs
        · exact hdel p hmem hpt
        · rw [hkeep p (Or.inl hmem), hs1]
          have hcf : targets.contains p = false := by
            cases hc : targets.contains p
            · rfl
            · exact absurd ((contains_iff _ _).mp hc) hpt
          by_cases hlk : (alookup p s.workdir).isSome
          · rw [if_pos (by simp [hcf, hlk, hpt])]
            show alookup p (aremove s.workdir p) = none
            rw [alookup_aremove, if_pos rfl]
          · have hnone : alookup p s.workdir = none :=
              Option.not_isSome_iff_eq_none.mp hlk
            split
            · show alookup p (aremove s.workdir p) = none
              rw [alookup_aremove, if_pos rfl]
            · exact hnone
      · exact hdel p h2 hpt
    · intro p hp
      rw [hstep]
      have hk : p ∉ fs ∨ p ∈ targets := by
        rcases hp with h1 | h2
        · exact Or.inl (fun hm => h1 (List.mem_cons_of_mem _ hm))
        · exact Or.inr h2
      rw [hkeep p hk]
      by_cases hpf : p = f
      · subst hpf
        rcases hp with h1 | h2
        · exact absurd (List.mem_cons_self p fs) h1
        · have hct : targets.contains p = true := (contains_iff _ _).mpr h2
          rw [hs1, if_neg (by simp [hct, h2])]
      · exact hs1keep p hpf

theorem read_index_congr (s s' : FitState) (h : s.indexFile = s'.indexFile) :
    read_index s = read_index s' := by
  simp [read_index, h]

/-! ## C9 -/

/-- **C9** — Materializer frame condition: when `reset_workflow s K`
succeeds with result `s'`, tree rows `rows` (pairwise-distinct paths) and
current index `cur`, then (1) exactly the row paths are written, each
receiving its blob's payload; (2) every current-index path outside the tree
is absent from the working tree afterwards; (3) any path outside both the
tree and the index keeps its contents byte-for-byte; and (4) no directory
is removed.  (`.fit`-internal files — refs, index, STAGING — are separate
`FitState` fields, not working-tree files.) -/
theorem c9_materializer_frame (s s' : FitState) (K : Chars)
    (rows cur : List (Chars × Chars))
    (hreset : reset_workflow s K = .ok s')
    (hrows : treeRowsOf s K = some rows)
    (hcur : read_index s = some cur)
    (hnd : (rows.map (fun r => r.2)).Nodup) :
    (∀ r ∈ rows, ∃ ty blob, read_object s r.1 = some (ty, blob) ∧
      alookup r.2 s'.workdir = some blob) ∧
    (∀ p, p ∉ rows.map (fun r => r.2) → p ∈ cur.map (fun e => e.1) →
      alookup p s'.workdir = none) ∧
    (∀ p, p ∉ rows.map (fun r => r.2) → p ∉ cur.map (fun e => e.1) →
      alookup p s'.workdir = alookup p s.workdir) ∧
    (∀ d ∈ s.dirs, d ∈ s'.dirs) := by
  unfold reset_workflow at hreset
  unfold treeRowsOf at hrows
  cases hro : read_object s K with
  | none => simp [hro] at hrows
  | some pr =>
    obtain ⟨ty, cc⟩ := pr
    simp only [hro] at hreset hrows
    cases hlines : rustLines cc with
    | nil => simp [hlines] at hrows
    | cons l1 lrest =>
      simp only [hlines] at hreset hrows
      cases hth : (splitWs l1)[1]? with
      | none => simp [hth] at hrows
      | some th =>
        simp only [hth] at hreset hrows
        cases htr : read_object s th with
        | none => simp [htr] at hrows
        | some pr2 =>
          obtain ⟨ty2, tc⟩ := pr2
          simp only [htr] at hrows
          have htr1 : read_object (update_current_branch s K) th =
              some (ty2, tc) := by
            rw [read_object_congr (update_current_branch s K) s rfl]
            exact htr
          simp only [htr1] at hreset
          have hcur2 : read_index
              { update_current_branch s K with staging := none } = some cur :=
            (read_index_congr _ s rfl).trans hcur
          simp only [hcur2] at hreset
          cases hpr : parseRows (rustLines tc) with
          | none => simp [hpr] at hrows
          | some rows2 =>
            simp only [hpr] at hreset hrows
            have hre : rows2 = rows := by simpa using hrows
            subst hre
            cases har : applyRows
                { update_current_branch s K with staging := none } rows2 [] with
            | none => simp [har] at hreset
            | some pr3 =>
              obtain ⟨s3, ni⟩ := pr3
              simp only [har, Except.ok.injEq] at hreset
              subst hreset
              obtain ⟨hfl3, hdirs3, hframe3, hhit3⟩ :=
                applyRows_spec rows2 _ [] s3 ni har
              obtain ⟨hfl4, hdel4, hkeep4⟩ :=
                deleteGone_spec (rows2.map (fun r => r.2))
                  (cur.map (fun e => e.1)) s3
              have hwd : (write_index
                  (deleteGone (rows2.map (fun r => r.2)) s3
                    (cur.map (fun e => e.1))) ni).workdir =
                  (deleteGone (rows2.map (fun r => r.2)) s3
                    (cur.map (fun e => e.1))).workdir := rfl
              refine ⟨?_, ?_, ?_, ?_⟩
              · intro r hr
                obtain ⟨ty', blob', hread', hlook'⟩ := hhit3 hnd r hr
                refine ⟨ty', blob', ?_, ?_⟩
                · rwa [read_object_congr
                    { update_current_branch s K with staging := none } s rfl]
                    at hread'
                · rw [hwd, hkeep4 r.2 (Or.inr (List.mem_map.mpr ⟨r, hr, rfl⟩))]
                  exact hlook'
              · intro p hpt hpc
                rw [hwd]
                exact hdel4 p hpc hpt
              · intro p hpt hpc
                rw [hwd, hkeep4 p (Or.inl hpc), hframe3 p hpt]
                rfl
              · intro d hd
                have h3 : d ∈ s3.dirs := hdirs3 d hd
                have h4 : (deleteGone (rows2.map (fun r => r.2)) s3
                    (cur.map (fun e => e.1))).dirs = s3.dirs :=
                  hfl4.2.2.2.2.2.2
                show d ∈ (deleteGone (rows2.map (fun r => r.2)) s3
                  (cur.map (fun e => e.1))).dirs
                rw [h4]
                exact h3

/-- Witness for C9 at the concrete repository `c9start`. -/
theorem c9_materializer_frame_witness :
    (reset_workflow c9start ("K1".toList) = .ok c9result ∧
     treeRowsOf c9start ("K1".toList) =
       some [("B1".toList, "a/b.txt".toList)] ∧
     read_index c9start = some [("old.txt".toList, "hOLD".toList)] ∧
     (([("B1".toList, "a/b.txt".toList)].map
        (fun r : Chars × Chars => r.2)).Nodup)) ∧
    (∀ p, p ∉ [("B1".toList, "a/b.txt".toList)].map
        (fun r : Chars × Chars => r.2) →
      p ∈ [("old.txt".toList, "hOLD".toList)].map
        (fun e : Chars × Chars => e.1) →
      alookup p c9result.workdir = none) :=
  ⟨⟨by decide, by decide, by decide, by decide⟩,
   (c9_materializer_frame c9start c9result ("K1".toList)
      [("B1".toList, "a/b.txt".toList)] [("old.txt".toList, "hOLD".toList)]
      (by decide) (by decide) (by decide) (by decide)).2.1⟩

/-! ## Round-trip supporting lemmas -/

theorem mem_ainsert_sub (m : List (Chars × Chars)) (k v : Chars)
    (e : Chars × Chars) (h : e ∈ ainsert m k v) : e = (k, v) ∨ e ∈ m := by
  simp only [ainsert, List.mem_cons] at h
  rcases h with h | h
  · exact Or.inl h
  · exact Or.inr (List.mem_of_mem_filter h)

theorem mem_foldl_ainsert (I : List (Chars × Chars)) :
    ∀ acc e, e ∈ I.foldl (fun m x => ainsert m x.1 x.2) acc →
      e ∈ I ∨ e ∈ acc := by
  induction I with
  | nil => intro acc e h; exact Or.inr h
  | cons x xs ih =>
    intro acc e h
    rcases ih (ainsert acc x.1 x.2) e h with h1 | h2
    · exact Or.inl (List.mem_cons_of_mem _ h1)
    · rcases mem_ainsert_sub acc x.1 x.2 e h2 with h3 | h4
      · exact Or.inl (by simp [h3])
      · exact Or.inr h4

theorem mem_normIdx_sub (I : List (Chars × Chars)) (e : Chars × Chars)
    (h : e ∈ normIdx I) : e ∈ I := by
  rcases mem_foldl_ainsert I [] e h with h1 | h2
  · exact h1
  · exact absurd h2 (by simp)

theorem nodup_keys_filter (m : List (Chars × Chars)) (k : Chars)
    (h : (m.map Prod.fst).Nodup) :
    (((m.filter (fun e => !(e.1 = k : Bool))).map Prod.fst)).Nodup :=
  ((List.filter_sublist m).map Prod.fst).nodup h

theorem nodup_keys_ainsert (m : List (Chars × Chars)) (k v : Chars)
    (h : (m.map Prod.fst).Nodup) :
    ((ainsert m k v).map Prod.fst).Nodup := by
  simp only [ainsert, List.map_cons, List.nodup_cons]
  refine ⟨?_, nodup_keys_filter m k h⟩
  intro hmem
  obtain ⟨e, he, hek⟩ := List.mem_map.mp hmem
  have hf := List.of_mem_filter he
  rw [hek] at hf
  simp at hf

theorem nodup_keys_normIdx (I : List (Chars × Chars)) :
    ((normIdx I).map Prod.fst).Nodup := by
  have hgen : ∀ acc, ((acc : List (Chars × Chars)).map Prod.fst).Nodup →
      ((I.foldl (fun m e => ainsert m e.1 e.2) acc).map Prod.fst).Nodup := by
    induction I with
    | nil => intro acc h; exact h
    | cons e es ih =>
      intro acc h
      exact ih _ (by
        simp only [ainsert, List.map_cons, List.nodup_cons]
        refine ⟨?_, nodup_keys_filter acc e.1 h⟩
        intro hmem
        obtain ⟨x, hx, hxk⟩ := List.mem_map.mp hmem
        have := List.of_mem_filter hx
        rw [hxk] at this
        simp at this)
  exact hgen [] (by simp)

theorem read_object_extend (s1 s2 : FitState) (k t p : Chars)
    (ht : goodType t)
    (h : s2.objects = ainsert s1.objects k (objHeader t p ++ p)) (q : Chars)
    (hq : (read_object s1 q).isSome) : (read_object s2 q).isSome := by
  by_cases hqk : q = k
  · subst hqk
    rw [read_object_of_alookup s2 q t p ht (by rw [h]; exact alookup_ainsert_self _ _ _)]
    rfl
  · have : alookup q s2.objects = alookup q s1.objects := by
      rw [h]
      exact alookup_ainsert_ne _ _ _ _ hqk
    simp only [read_object, this]
    simpa [read_object] using hq

theorem applyRows_isSome (rows : List (Chars × Chars)) :
    ∀ (s : FitState) acc, (∀ r ∈ rows, (read_object s r.1).isSome) →
      (applyRows s rows acc).isSome := by
  induction rows with
  | nil => intro s acc _; simp [applyRows]
  | cons r rest ih =>
    intro s acc h
    obtain ⟨fh, fp⟩ := r
    have h1 := h (fh, fp) (by simp)
    obtain ⟨pr, hpr⟩ := Option.isSome_iff_exists.mp h1
    obtain ⟨ty, blob⟩ := pr
    simp only [applyRows, hpr]
    apply ih
    intro rr hrr
    have hro := h rr (List.mem_cons_of_mem _ hrr)
    have hgen : ∀ s' : FitState, s'.objects = s.objects →
        (read_object s' rr.1).isSome := by
      intro s' hs'
      rwa [read_object_congr s' s hs']
    exact hgen _ rfl

theorem dropPre_append (p r : Chars) : dropPre p (p ++ r) = some r := by
  induction p with
  | nil => rfl
  | cons c cs ih => simp [dropPre, ih]

theorem trim_head_line (b : Chars) (hb : cleanTok b = true) :
    trimChars ("ref: refs/heads/".toList ++ b ++ ['\n']) =
      "ref: refs/heads/".toList ++ b := by
  obtain ⟨hne, hcl⟩ := (cleanTok_iff b).mp hb
  rw [List.append_assoc]
  rw [show ("ref: refs/heads/".toList ++ (b ++ ['\n'])) =
      (("ref: refs/heads/".toList ++ b) ++ ['\n']) by simp]
  apply trimChars_append_nl
  · intro c hc
    rw [head?_append_left _ _ (by decide)] at hc
    have : c = 'r' := by
      have : ("ref: refs/heads/".toList : Chars).head? = some 'r' := rfl
      rw [this] at hc
      exact (Option.some.inj hc).symm
    rw [this]
    decide
  · intro c hc
    rw [List.getLast?_append_of_ne_nil _ hne] at hc
    exact hcl c (glMem _ _ hc)

theorem get_current_branch_head (s : FitState) (b : Chars)
    (hb : cleanTok b = true)
    (hhead : s.head = "ref: refs/heads/".toList ++ b ++ ['\n']) :
    get_current_branch s = b := by
  unfold get_current_branch
  rw [hhead, trim_head_line b hb, dropPre_append]
  rfl

theorem get_current_commit_head (s : FitState) (b C0 : Chars)
    (hb : cleanTok b = true)
    (hhead : s.head = "ref: refs/heads/".toList ++ b ++ ['\n'])
    (hr : alookup b s.refs = some C0) (hC0 : cleanTok C0 = true) :
    get_current_commit s = some C0 := by
  unfold get_current_commit
  rw [hhead, trim_head_line b hb]
  rw [show ("ref: refs/heads/".toList ++ b : Chars) =
      "ref: ".toList ++ ("refs/heads/".toList ++ b) from rfl]
  rw [dropPre_append]
  simp only [Option.getD_some]
  rw [dropPre_append]
  show Option.map trimChars (alookup b s.refs) = some C0
  rw [hr]
  obtain ⟨hne, hcl⟩ := (cleanTok_iff C0).mp hC0
  show some (trimChars C0) = some C0
  rw [trimChars_eq_self C0 (fun c hc => hcl c (headMem _ _ hc))
    (fun c hc => hcl c (glMem _ _ hc))]

theorem splitNl_ne_nil (s : Chars) : splitNl s ≠ [] := by
  cases s with
  | nil => simp [splitNl]
  | cons c cs =>
    simp only [splitNl]
    by_cases h : c = '\n'
    · simp [h]
    · rw [if_neg h]
      cases hs : splitNl cs <;> simp

theorem rustLines_cons_head (a r : Chars) (hn : '\n' ∉ a) (hr : '\r' ∉ a) :
    ∃ rest, rustLines (a ++ '\n' :: r) = a :: rest := by
  rw [rustLines_eq, splitNl_append a r hn]
  cases hsp : splitNl r with
  | nil => exact absurd hsp (splitNl_ne_nil r)
  | cons q qs =>
    by_cases hlast : (a :: q :: qs).getLast? = some []
    · rw [if_pos hlast]
      refine ⟨(q :: qs).dropLast.map stripCR, ?_⟩
      rw [show (a :: q :: qs).dropLast = a :: (q :: qs).dropLast from rfl]
      simp [stripCR_eq_self a hr]
    · rw [if_neg hlast]
      exact ⟨(q :: qs).map stripCR, by simp [stripCR_eq_self a hr]⟩

theorem serializeTree_eq (index : List (Chars × Chars)) :
    serializeTree index =
      ((index.map (fun e => "100644 blob ".toList ++ e.2 ++ ' ' :: e.1)).map
        (fun l => l ++ ['\n'])).flatten := by
  unfold serializeTree
  rw [List.map_map]
  congr 1
  apply List.map_congr_left
  intro e _
  simp

theorem parseRows_serialized (index : List (Chars × Chars))
    (h : ∀ e ∈ index, cleanTok e.1 = true ∧ cleanTok e.2 = true) :
    parseRows (index.map (fun e => "100644 blob ".toList ++ e.2 ++ ' ' :: e.1)) =
      some (index.map (fun e => (e.2, e.1))) := by
  induction index with
  | nil => rfl
  | cons e es ih =>
    simp only [List.mem_cons, forall_eq_or_imp] at h
    obtain ⟨⟨h1, h2⟩, hes⟩ := h
    obtain ⟨h1ne, h1cl⟩ := (cleanTok_iff _).mp h1
    obtain ⟨h2ne, h2cl⟩ := (cleanTok_iff _).mp h2
    have hsp : splitWs ("100644 blob ".toList ++ e.2 ++ ' ' :: e.1) =
        ["100644".toList, "blob".toList, e.2, e.1] := by
      rw [show ("100644 blob ".toList ++ e.2 ++ ' ' :: e.1 : Chars) =
          "100644".toList ++ ' ' :: ("blob".toList ++ ' ' :: (e.2 ++ ' ' :: e.1))
          from by simp]
      rw [splitWs_token_cons _ _ (by decide) (by decide),
        splitWs_token_cons _ _ (by decide) (by decide),
        splitWs_token_cons _ _ h2ne h2cl, splitWs_single _ h1ne h1cl]
    simp only [List.map_cons, parseRows, hsp, ih hes]
    rfl

/-- A constructive run of `reset_workflow`: when the commit and tree objects
resolve, the index file parses and every row's blob resolves, the reset
succeeds, leaves no staging file, and — for distinct row paths — puts every
row's blob payload at its path. -/
theorem reset_workflow_run (s : FitState) (K ty cc th ty2 tc l1 : Chars)
    (lrest : List Chars) (rows cur : List (Chars × Chars))
    (hro : read_object s K = some (ty, cc))
    (hline : rustLines cc = l1 :: lrest)
    (hth : (splitWs l1)[1]? = some th)
    (htr : read_object s th = some (ty2, tc))
    (hcur : read_index s = some cur)
    (hpr : parseRows (rustLines tc) = some rows)
    (happ : ∀ r ∈ rows, (read_object s r.1).isSome) :
    ∃ s', reset_workflow s K = .ok s' ∧ s'.staging = none ∧
      ((rows.map (fun r => r.2)).Nodup →
        ∀ r ∈ rows, ∃ tyb blob, read_object s r.1 = some (tyb, blob) ∧
          alookup r.2 s'.workdir = some blob) := by
  have htr1 : read_object (update_current_branch s K) th = some (ty2, tc) := by
    rw [read_object_congr (update_current_branch s K) s rfl]
    exact htr
  have hcur2 : read_index
      { update_current_branch s K with staging := none } = some cur :=
    (read_index_congr _ s rfl).trans hcur
  have happ2 : ∀ r ∈ rows,
      (read_object { update_current_branch s K with staging := none } r.1).isSome := by
    intro r hr
    have hh := happ r hr
    rwa [read_object_congr
      { update_current_branch s K with staging := none } s rfl]
  obtain ⟨pr3, hpr3⟩ :=
    Option.isSome_iff_exists.mp (applyRows_isSome rows _ [] happ2)
  obtain ⟨s3, ni⟩ := pr3
  obtain ⟨hfl3, _, _, hhit3⟩ := applyRows_spec rows _ [] s3 ni hpr3
  obtain ⟨hfl4, _, hkeep4⟩ :=
    deleteGone_spec (rows.map (fun r => r.2)) (cur.map (fun e => e.1)) s3
  refine ⟨write_index (deleteGone (rows.map (fun r => r.2)) s3
      (cur.map (fun e => e.1))) ni, ?_, ?_, ?_⟩
  · unfold reset_workflow
    simp only [hro, hline, hth, htr1, hcur2, hpr, hpr3]
  · show (deleteGone (rows.map (fun r => r.2)) s3
      (cur.map (fun e => e.1))).staging = none
    rw [hfl4.2.2.2.2.1, hfl3.2.2.2.2.1]
  · intro hnd r hr
    obtain ⟨tyb, blob, hread', hlook'⟩ := hhit3 hnd r hr
    refine ⟨tyb, blob, ?_, ?_⟩
    · rw [read_object_congr s
        { update_current_branch s K with staging := none } rfl r.1]
      exact hread'
    · show alookup r.2 (deleteGone (rows.map (fun r => r.2)) s3
        (cur.map (fun e => e.1))).workdir = some blob
      rw [hkeep4 r.2 (Or.inr (List.mem_map.mpr ⟨r, hr, rfl⟩))]
      exact hlook'

theorem splitWs_tag_line (tag H F : Chars) (htne : tag ≠ [])
    (htcl : ∀ c ∈ tag, isWs c = false)
    (hH : cleanTok H = true) (hF : cleanTok F = true) :
    splitWs (tag ++ ' ' :: (H ++ ' ' :: F)) = [tag, H, F] := by
  obtain ⟨hHne, hHcl⟩ := (cleanTok_iff H).mp hH
  obtain ⟨hFne, hFcl⟩ := (cleanTok_iff F).mp hF
  rw [splitWs_token_cons tag _ htne htcl, splitWs_token_cons H _ hHne hHcl,
    splitWs_single F hFne hFcl]

theorem rustLines_single_line (x : Chars) (h1 : '\n' ∉ x) (h2 : '\r' ∉ x) :
    rustLines (x ++ ['\n']) = [x] := by
  have h := rustLines_terminated [x] (by
    intro l hl
    rw [List.mem_singleton] at hl
    subst hl
    exact ⟨h1, h2⟩)
  simpa using h

/-- Re-reading a staging file holding one Added or one Modified entry with
clean tokens recovers the same staging area. -/
theorem reload_sa_single (s : FitState) (F H : Chars)
    (hF : cleanTok F = true) (hH : cleanTok H = true) (sa : StagingArea)
    (hsa : sa = ⟨[(F, H)], [], []⟩ ∨ sa = ⟨[], [(F, H)], []⟩)
    (hs : s.staging = some (serializeSA sa)) :
    read_staging_area s = sa := by
  obtain ⟨hFne, hFcl⟩ := (cleanTok_iff F).mp hF
  obtain ⟨hHne, hHcl⟩ := (cleanTok_iff H).mp hH
  have hmem : ∀ t d : Char, d ≠ t → d ≠ ' ' →
      isWs d = true → d ∉ (t :: ' ' :: (H ++ ' ' :: F) : Chars) := by
    intro t d hdt hds hdw hm
    rcases List.mem_cons.mp hm with h | hm
    · exact hdt h
    rcases List.mem_cons.mp hm with h | hm
    · exact hds h
    rcases List.mem_append.mp hm with h | hm
    · exact not_mem_of_clean H hHcl d hdw h
    rcases List.mem_cons.mp hm with h | hm
    · exact hds h
    · exact not_mem_of_clean F hFcl d hdw hm
  rcases hsa with rfl | rfl
  · have hser : serializeSA ⟨[(F, H)], [], []⟩ =
        ('A' :: ' ' :: (H ++ ' ' :: F)) ++ ['\n'] := by
      simp [serializeSA]
    have hrl : rustLines (('A' :: ' ' :: (H ++ ' ' :: F)) ++ ['\n']) =
        [('A' :: ' ' :: (H ++ ' ' :: F))] :=
      rustLines_single_line _ (hmem 'A' '\n' (by decide) (by decide) (by decide))
        (hmem 'A' '\r' (by decide) (by decide) (by decide))
    simp only [read_staging_area, hs, hser, hrl]
    show parseStagingLine StagingArea.new ('A' :: ' ' :: (H ++ ' ' :: F)) = _
    have hsp : splitWs ('A' :: ' ' :: (H ++ ' ' :: F)) = ["A".toList, H, F] := by
      have he : ('A' :: ' ' :: (H ++ ' ' :: F) : Chars) =
          "A".toList ++ ' ' :: (H ++ ' ' :: F) := rfl
      rw [he]
      exact splitWs_tag_line _ _ _ (by decide) (by decide) hH hF
    unfold parseStagingLine
    simp only [hsp]
    rw [if_pos trivial]
    rfl
  · have hser : serializeSA ⟨[], [(F, H)], []⟩ =
        ('M' :: ' ' :: (H ++ ' ' :: F)) ++ ['\n'] := by
      simp [serializeSA]
    have hrl : rustLines (('M' :: ' ' :: (H ++ ' ' :: F)) ++ ['\n']) =
        [('M' :: ' ' :: (H ++ ' ' :: F))] :=
      rustLines_single_line _ (hmem 'M' '\n' (by decide) (by decide) (by decide))
        (hmem 'M' '\r' (by decide) (by decide) (by decide))
    simp only [read_staging_area, hs, hser, hrl]
    show parseStagingLine StagingArea.new ('M' :: ' ' :: (H ++ ' ' :: F)) = _
    have hsp : splitWs ('M' :: ' ' :: (H ++ ' ' :: F)) = ["M".toList, H, F] := by
      have he : ('M' :: ' ' :: (H ++ ' ' :: F) : Chars) =
          "M".toList ++ ' ' :: (H ++ ' ' :: F) := rfl
      rw [he]
      exact splitWs_tag_line _ _ _ (by decide) (by decide) hH hF
    unfold parseStagingLine
    simp only [hsp]
    rw [if_pos trivial]
    rfl

/-- Cleanliness of the paths and hashes of the two C5 index snapshots. -/
theorem c5index_clean (hashFn : Chars → Chars) (I : List (Chars × Chars))
    (F c : Chars) (hF : cleanTok F = true)
    (hIcl : ∀ e ∈ I, cleanTok e.1 = true ∧ cleanTok e.2 = true)
    (hclean : ∀ x, cleanTok (hashFn x) = true) :
    (∀ e ∈ c5index1 hashFn I F c, cleanTok e.1 = true ∧ cleanTok e.2 = true) ∧
    (∀ e ∈ c5index2 hashFn I F c, cleanTok e.1 = true ∧ cleanTok e.2 = true) := by
  have h1 : ∀ e ∈ c5index1 hashFn I F c,
      cleanTok e.1 = true ∧ cleanTok e.2 = true := by
    intro e he
    rcases mem_ainsert_sub _ _ _ _ he with rfl | he'
    · exact ⟨hF, hclean _⟩
    · exact hIcl e (mem_normIdx_sub I e he')
  refine ⟨h1, ?_⟩
  intro e he
  rcases mem_ainsert_sub _ _ _ _ he with rfl | he'
  · exact ⟨hF, hclean _⟩
  · exact h1 e (mem_normIdx_sub _ e he')

/-- A constructive run of `add_workflow` in the C5 pipeline: starting from
`c5state`, adding a working file whose content hash is not already the
indexed one stores the blob, stages the path (Added when absent from the
index, Modified otherwise), and rewrites index and staging files. -/
theorem c5_add_run (hashFn : Chars → Chars)
    (objs refs wd : List (Chars × Chars)) (dirs : List Chars)
    (stash : Option Chars) (b F c : Chars) (I : List (Chars × Chars))
    (hwd : alookup F wd = some c)
    (hIcl : ∀ e ∈ I, cleanTok e.1 = true ∧ cleanTok e.2 = true)
    (hnd : (I.map Prod.fst).Nodup)
    (hnew : alookup F I ≠ some (hashFn (blobStream c))) :
    ∃ sa', (sa' = ⟨[(F, hashFn (blobStream c))], [], []⟩ ∨
            sa' = ⟨[], [(F, hashFn (blobStream c))], []⟩) ∧
      add_workflow hashFn (c5state objs refs wd dirs stash b I) F =
        .ok (c5afterAdd hashFn objs refs wd dirs stash b F c I sa') := by
  have hwd0 : alookup F (c5state objs refs wd dirs stash b I).workdir =
      some c := hwd
  have halnorm : alookup F (normIdx I) = alookup F I := alookup_normIdx I hnd F
  have hidx0 : read_index (c5state objs refs wd dirs stash b I) =
      some (normIdx I) := by
    rw [read_index_congr (c5state objs refs wd dirs stash b I)
        (write_index (c5state objs refs wd dirs stash b I) I) rfl,
      read_index_write_index _ I hIcl]
  have hsa0 : read_staging_area (c5state objs refs wd dirs stash b I) =
      StagingArea.new := rfl
  have key : ∃ sa', (sa' = ⟨[(F, hashFn (blobStream c))], [], []⟩ ∨
        sa' = ⟨[], [(F, hashFn (blobStream c))], []⟩) ∧
      add_file hashFn (c5state objs refs wd dirs stash b I) StagingArea.new
          (normIdx I) F =
        some (⟨ainsert objs (hashFn (blobStream c)) (blobStream c),
               "ref: refs/heads/".toList ++ b ++ ['\n'], refs,
               some (serializeIndex I), none, stash, wd, dirs⟩,
              sa', ainsert (normIdx I) F (hashFn (blobStream c))) := by
    cases halF : alookup F I with
    | none =>
      refine ⟨_, Or.inl rfl, ?_⟩
      unfold add_file
      simp only [hwd0, write_object, halnorm, halF]
      rfl
    | some old =>
      have hold : old ≠ hashFn (objHeader ("blob".toList) c ++ c) :=
        fun h => hnew (halF.trans (by rw [h]; rfl))
      refine ⟨_, Or.inr rfl, ?_⟩
      unfold add_file
      simp only [hwd0, write_object, halnorm, halF]
      rw [if_pos hold]
      rfl
  obtain ⟨sa', hsa'c, haf⟩ := key
  refine ⟨sa', hsa'c, ?_⟩
  unfold add_workflow
  simp only [hsa0, hidx0]
  rw [if_pos (by rw [hwd0]; rfl)]
  simp only [haf]
  rfl

/-- A constructive run of `commit_workflow` in the C5 pipeline: from a state
whose staging file holds the single entry produced by the add, the commit
stores the tree and commit objects, advances branch `b`, removes the staging
file, and rewrites the index file with the applied delta. -/
theorem c5_commit_run (hashFn : Chars → Chars) (s : FitState)
    (b C0 F c M : Chars) (I : List (Chars × Chars)) (sa' : StagingArea)
    (hb : cleanTok b = true) (hC0 : cleanTok C0 = true)
    (hF : cleanTok F = true) (hclean : ∀ x, cleanTok (hashFn x) = true)
    (hsa'c : sa' = ⟨[(F, hashFn (blobStream c))], [], []⟩ ∨
             sa' = ⟨[], [(F, hashFn (blobStream c))], []⟩)
    (hIcl : ∀ e ∈ I, cleanTok e.1 = true ∧ cleanTok e.2 = true)
    (hhead : s.head = "ref: refs/heads/".toList ++ b ++ ['\n'])
    (hrefs : alookup b s.refs = some C0)
    (hindex : s.indexFile = some (serializeIndex (c5index1 hashFn I F c)))
    (hstage : s.staging = some (serializeSA sa')) :
    commit_workflow hashFn s M =
      .ok (.committed (hashFn (c5commitStream hashFn I F c C0 M)),
           c5afterCommit hashFn s b C0 F c M I) := by
  have hsa1 : read_staging_area s = sa' :=
    reload_sa_single s F (hashFn (blobStream c)) hF (hclean _) sa' hsa'c hstage
  have hne1 : saIsEmpty sa' = false := by
    rcases hsa'c with rfl | rfl <;> rfl
  have hidx1 : read_index s = some (normIdx (c5index1 hashFn I F c)) := by
    rw [read_index_congr s (write_index s (c5index1 hashFn I F c))
        (by rw [hindex]; rfl),
      read_index_write_index _ _ (c5index_clean hashFn I F c hF hIcl hclean).1]
  have happly : applyStagingToIndex sa' (normIdx (c5index1 hashFn I F c)) =
      c5index2 hashFn I F c := by
    rcases hsa'c with rfl | rfl <;> rfl
  have hC1 : get_current_commit s = some C0 :=
    get_current_commit_head s b C0 hb hhead hrefs hC0
  have hbr : get_current_branch s = b := get_current_branch_head s b hb hhead
  have htS : objHeader ("tree".toList) (serializeTree (c5index2 hashFn I F c)) ++
      serializeTree (c5index2 hashFn I F c) = c5treeStream hashFn I F c := rfl
  have hcS : objHeader ("commit".toList)
      ("tree ".toList ++ hashFn (c5treeStream hashFn I F c) ++ '\n' ::
        ("parent ".toList ++ C0 ++ '\n' :: '\n' :: M)) ++
      ("tree ".toList ++ hashFn (c5treeStream hashFn I F c) ++ '\n' ::
        ("parent ".toList ++ C0 ++ '\n' :: '\n' :: M)) =
      c5commitStream hashFn I F c C0 M := rfl
  unfold commit_workflow
  simp only [hsa1]
  rw [if_neg (by simp [hne1])]
  simp only [hidx1, happly, create_tree_object, write_object, htS,
    get_current_commit_set_objects, hC1, hcS]
  simp only [update_current_branch, get_current_branch_set_objects, hbr,
    write_index]
  simp only [hstage]
  rfl

theorem encChar_mem_char (c d : Char) (hd : d ∈ encChar c) :
    d = 'a' ∨ d = 'b' := by
  unfold encChar at hd
  rcases List.mem_append.mp hd with h | h
  · exact Or.inl (List.eq_of_mem_replicate h)
  · rw [List.mem_singleton] at h
    exact Or.inr h

/-- `encHash` always produces a nonempty whitespace-free token. -/
theorem encHash_clean (x : Chars) : cleanTok (encHash x) = true := by
  rw [cleanTok_iff]
  constructor
  · simp [encHash]
  · intro d hd
    simp only [encHash] at hd
    rcases List.mem_cons.mp hd with h | h
    · subst h
      decide
    · obtain ⟨e, -, hde⟩ := List.mem_flatMap.mp h
      rcases encChar_mem_char e d hde with rfl | rfl <;> decide

/-- **C5** — Add-commit-reset round trip: from a repository whose HEAD is on
branch `b` (ref holding `C0`), whose index file serializes the clean,
key-distinct entries of `I` (each backed by a stored object), and whose
working tree maps the clean path `F` to contents `c` not already indexed at
its blob hash, the sequence `add F`, `commit -m M`, `reset <new commit>`
succeeds, restores `F`'s working-tree contents byte-for-byte and leaves the
staging file absent.  The hash function is a parameter (the source uses
SHA-1); the hypotheses ask only that its outputs are whitespace-free tokens
and that the three streams actually stored get pairwise distinct hashes. -/
theorem c5_add_commit_reset_round_trip (hashFn : Chars → Chars)
    (objs refs wd : List (Chars × Chars)) (dirs : List Chars)
    (stash : Option Chars) (b C0 F c M : Chars) (I : List (Chars × Chars))
    (hb : cleanTok b = true) (hr0 : alookup b refs = some C0)
    (hC0 : cleanTok C0 = true) (hF : cleanTok F = true)
    (hwd : alookup F wd = some c)
    (hIcl : ∀ e ∈ I, cleanTok e.1 = true ∧ cleanTok e.2 = true)
    (hIobj : ∀ e ∈ I,
      (read_object (c5state objs refs wd dirs stash b I) e.2).isSome)
    (hnd : (I.map Prod.fst).Nodup)
    (hnew : alookup F I ≠ some (hashFn (blobStream c)))
    (hclean : ∀ x, cleanTok (hashFn x) = true)
    (hBT : hashFn (blobStream c) ≠ hashFn (c5treeStream hashFn I F c))
    (hBK : hashFn (blobStream c) ≠ hashFn (c5commitStream hashFn I F c C0 M))
    (hTK : hashFn (c5treeStream hashFn I F c) ≠
      hashFn (c5commitStream hashFn I F c C0 M)) :
    ∃ s1 K s2 s3,
      add_workflow hashFn (c5state objs refs wd dirs stash b I) F = .ok s1 ∧
      commit_workflow hashFn s1 M = .ok (.committed K, s2) ∧
      reset_workflow s2 K = .ok s3 ∧
      alookup F s3.workdir = some c ∧ s3.staging = none := by
  obtain ⟨sa', hsa'c, hadd⟩ :=
    c5_add_run hashFn objs refs wd dirs stash b F c I hwd hIcl hnd hnew
  have hcommit := c5_commit_run hashFn
    (c5afterAdd hashFn objs refs wd dirs stash b F c I sa') b C0 F c M I sa'
    hb hC0 hF hclean hsa'c hIcl rfl hr0 rfl rfl
  set S2 := c5afterCommit hashFn
    (c5afterAdd hashFn objs refs wd dirs stash b F c I sa') b C0 F c M I
    with hS2def
  have hro : read_object S2 (hashFn (c5commitStream hashFn I F c C0 M)) =
      some ("commit".toList, c5commitBody hashFn I F c C0 M) := by
    apply read_object_of_alookup _ _ _ _
      (goodType_of_literal _ (Or.inr (Or.inr rfl)))
    show alookup _ (ainsert _ (hashFn (c5commitStream hashFn I F c C0 M))
        (c5commitStream hashFn I F c C0 M)) = _
    exact alookup_ainsert_self _ _ _
  have hTne : hashFn (c5treeStream hashFn I F c) ≠ [] :=
    ((cleanTok_iff _).mp (hclean (c5treeStream hashFn I F c))).1
  have hTcl : ∀ d ∈ hashFn (c5treeStream hashFn I F c), isWs d = false :=
    ((cleanTok_iff _).mp (hclean (c5treeStream hashFn I F c))).2
  have hline : ∃ rest, rustLines (c5commitBody hashFn I F c C0 M) =
      ("tree ".toList ++ hashFn (c5treeStream hashFn I F c)) :: rest := by
    have he : c5commitBody hashFn I F c C0 M =
        ("tree ".toList ++ hashFn (c5treeStream hashFn I F c)) ++ '\n' ::
          ("parent ".toList ++ C0 ++ '\n' :: '\n' :: M) := by
      simp [c5commitBody]
    rw [he]
    apply rustLines_cons_head
    · intro hm
      rcases List.mem_append.mp hm with h | h
      · exact absurd h (by decide)
      · exact absurd (hTcl '\n' h) (by decide)
    · intro hm
      rcases List.mem_append.mp hm with h | h
      · exact absurd h (by decide)
      · exact absurd (hTcl '\r' h) (by decide)
  obtain ⟨rest, hline⟩ := hline
  have hsp1 : (splitWs ("tree ".toList ++
      hashFn (c5treeStream hashFn I F c)))[1]? =
      some (hashFn (c5treeStream hashFn I F c)) := by
    have he : ("tree ".toList ++ hashFn (c5treeStream hashFn I F c) : Chars) =
        "tree".toList ++ ' ' :: hashFn (c5treeStream hashFn I F c) := rfl
    rw [he, splitWs_token_cons _ _ (by decide) (by decide),
      splitWs_single _ hTne hTcl]
    rfl
  have htr : read_object S2 (hashFn (c5treeStream hashFn I F c)) =
      some ("tree".toList, serializeTree (c5index2 hashFn I F c)) := by
    apply read_object_of_alookup _ _ _ _
      (goodType_of_literal _ (Or.inr (Or.inl rfl)))
    show alookup _ (ainsert (ainsert
        (c5afterAdd hashFn objs refs wd dirs stash b F c I sa').objects
        (hashFn (c5treeStream hashFn I F c)) (c5treeStream hashFn I F c))
        (hashFn (c5commitStream hashFn I F c C0 M))
        (c5commitStream hashFn I F c C0 M)) = _
    rw [alookup_ainsert_ne _ _ _ _ hTK]
    exact alookup_ainsert_self _ _ _
  have hcl2 := (c5index_clean hashFn I F c hF hIcl hclean).2
  have hcur : read_index S2 = some (normIdx (c5index2 hashFn I F c)) := by
    rw [read_index_congr S2 (write_index S2 (c5index2 hashFn I F c)) rfl,
      read_index_write_index _ _ hcl2]
  have hlines : ∀ l ∈ (c5index2 hashFn I F c).map
      (fun e => "100644 blob ".toList ++ e.2 ++ ' ' :: e.1),
      '\n' ∉ l ∧ '\r' ∉ l := by
    intro l hl
    obtain ⟨e, he, rfl⟩ := List.mem_map.mp hl
    obtain ⟨h1, h2⟩ := hcl2 e he
    obtain ⟨h1ne, h1cl⟩ := (cleanTok_iff _).mp h1
    obtain ⟨h2ne, h2cl⟩ := (cleanTok_iff _).mp h2
    have hgen : ∀ d : Char, isWs d = true → d ≠ ' ' →
        d ∉ ("100644 blob ".toList : Chars) →
        d ∉ ("100644 blob ".toList ++ (e.2 ++ ' ' :: e.1) : Chars) := by
      intro d hdw hds hdl hm
      rcases List.mem_append.mp hm with h | hm
      · exact hdl h
      rcases List.mem_append.mp hm with h | hm
      · exact not_mem_of_clean _ h2cl d hdw h
      rcases List.mem_cons.mp hm with h | hm
      · exact hds h
      · exact not_mem_of_clean _ h1cl d hdw hm
    exact ⟨hgen '\n' (by decide) (by decide) (by decide),
           hgen '\r' (by decide) (by decide) (by decide)⟩
  have hpr : parseRows (rustLines (serializeTree (c5index2 hashFn I F c))) =
      some ((c5index2 hashFn I F c).map (fun e => (e.2, e.1))) := by
    rw [serializeTree_eq, rustLines_terminated _ hlines]
    exact parseRows_serialized _ hcl2
  have hroH : read_object S2 (hashFn (blobStream c)) =
      some ("blob".toList, c) := by
    apply read_object_of_alookup _ _ _ _ (goodType_of_literal _ (Or.inl rfl))
    show alookup _ (ainsert (ainsert
        (c5afterAdd hashFn objs refs wd dirs stash b F c I sa').objects
        (hashFn (c5treeStream hashFn I F c)) (c5treeStream hashFn I F c))
        (hashFn (c5commitStream hashFn I F c C0 M))
        (c5commitStream hashFn I F c C0 M)) = _
    rw [alookup_ainsert_ne _ _ _ _ hBK, alookup_ainsert_ne _ _ _ _ hBT]
    show alookup _ (ainsert objs (hashFn (blobStream c)) (blobStream c)) = _
    exact alookup_ainsert_self _ _ _
  have happ : ∀ r ∈ (c5index2 hashFn I F c).map (fun e => (e.2, e.1)),
      (read_object S2 r.1).isSome := by
    intro r hr
    obtain ⟨e, he, rfl⟩ := List.mem_map.mp hr
    show (read_object S2 e.2).isSome
    rcases mem_ainsert_sub _ _ _ _ he with rfl | he1
    · show (read_object S2 (hashFn (blobStream c))).isSome
      rw [hroH]
      rfl
    · have he2 := mem_normIdx_sub _ _ he1
      rcases mem_ainsert_sub _ _ _ _ he2 with rfl | he3
      · show (read_object S2 (hashFn (blobStream c))).isSome
        rw [hroH]
        rfl
      · have he4 := mem_normIdx_sub _ _ he3
        have h0 := hIobj e he4
        have h1 : (read_object (⟨ainsert objs (hashFn (blobStream c))
              (blobStream c), [], [], none, none, none, [], []⟩ : FitState)
            e.2).isSome :=
          read_object_extend (c5state objs refs wd dirs stash b I) _
            (hashFn (blobStream c)) ("blob".toList) c
            (goodType_of_literal _ (Or.inl rfl)) rfl e.2 h0
        have h2 : (read_object (⟨ainsert (ainsert objs (hashFn (blobStream c))
              (blobStream c)) (hashFn (c5treeStream hashFn I F c))
              (c5treeStream hashFn I F c),
            [], [], none, none, none, [], []⟩ : FitState) e.2).isSome :=
          read_object_extend _ _ (hashFn (c5treeStream hashFn I F c))
            ("tree".toList) (serializeTree (c5index2 hashFn I F c))
            (goodType_of_literal _ (Or.inr (Or.inl rfl))) rfl e.2 h1
        exact read_object_extend
          (⟨ainsert (ainsert objs (hashFn (blobStream c)) (blobStream c))
              (hashFn (c5treeStream hashFn I F c)) (c5treeStream hashFn I F c),
            [], [], none, none, none, [], []⟩ : FitState) S2
          (hashFn (c5commitStream hashFn I F c C0 M)) ("commit".toList)
          (c5commitBody hashFn I F c C0 M)
          (goodType_of_literal _ (Or.inr (Or.inr rfl))) rfl e.2 h2
  have hndrows : (((c5index2 hashFn I F c).map (fun e => (e.2, e.1))).map
      (fun r => r.2)).Nodup := by
    rw [List.map_map]
    exact nodup_keys_ainsert _ F (hashFn (blobStream c)) (nodup_keys_normIdx _)
  obtain ⟨s3, hreset, hst3, hhit⟩ := reset_workflow_run S2
    (hashFn (c5commitStream hashFn I F c C0 M)) ("commit".toList)
    (c5commitBody hashFn I F c C0 M) (hashFn (c5treeStream hashFn I F c))
    ("tree".toList) (serializeTree (c5index2 hashFn I F c))
    ("tree ".toList ++ hashFn (c5treeStream hashFn I F c)) rest
    ((c5index2 hashFn I F c).map (fun e => (e.2, e.1)))
    (normIdx (c5index2 hashFn I F c))
    hro hline hsp1 htr hcur hpr happ
  have hmemFH : ((hashFn (blobStream c), F) : Chars × Chars) ∈
      (c5index2 hashFn I F c).map (fun e => (e.2, e.1)) := by
    refine List.mem_map.mpr ⟨(F, hashFn (blobStream c)), ?_, rfl⟩
    show ((F, hashFn (blobStream c)) : Chars × Chars) ∈
      (F, hashFn (blobStream c)) ::
        (normIdx (c5index1 hashFn I F c)).filter
          (fun e => !(e.1 = F : Bool))
    exact List.mem_cons_self _ _
  obtain ⟨tyb, blob, hre, hal⟩ := hhit hndrows _ hmemFH
  have hre' : read_object S2 (hashFn (blobStream c)) = some (tyb, blob) := hre
  rw [hroH] at hre'
  have hblob : blob = c :=
    ((Prod.mk.injEq _ _ _ _).mp (Option.some.inj hre')).2.symm
  have hal' : alookup F s3.workdir = some c := by
    have h3 : alookup F s3.workdir = some blob := hal
    rw [hblob] at h3
    exact h3
  exact ⟨c5afterAdd hashFn objs refs wd dirs stash b F c I sa',
    hashFn (c5commitStream hashFn I F c C0 M), S2, s3,
    hadd, hcommit, hreset, hal', hst3⟩

/-- Witness for C5: the full add-commit-reset pipeline at a one-file
repository with the injective hash `encHash`. -/
theorem c5_add_commit_reset_round_trip_witness :
    ∃ s1 K s2 s3,
      add_workflow encHash (c5state [] [("master".toList, "c0".toList)]
          [("f".toList, "x".toList)] [] none ("master".toList) [])
          ("f".toList) = .ok s1 ∧
      commit_workflow encHash s1 ("m".toList) = .ok (.committed K, s2) ∧
      reset_workflow s2 K = .ok s3 ∧
      alookup ("f".toList) s3.workdir = some ("x".toList) ∧
      s3.staging = none :=
  c5_add_commit_reset_round_trip encHash [] [("master".toList, "c0".toList)]
    [("f".toList, "x".toList)] [] none ("master".toList) ("c0".toList)
    ("f".toList) ("x".toList) ("m".toList) []
    (by decide) (by decide) (by decide) (by decide) (by decide)
    (by decide) (by decide) (by decide) (by decide)
    (fun x => encHash_clean x)
    (by decide) (by decide) (by decide)

end Fit




